import Mathlib

/-!
Verification of the action-list compiler of the hailo runtime library.

This development shallowly embeds the context-switch action model and the
three rewrite passes of `src/hailort/libhailort/src/hef.cpp`, the repeated
action construction and serialization of
`src/hailort/libhailort/src/context_switch/context_switch_actions.cpp`,
the DDR pair validation (`HefUtils::check_ddr_pairs_match`) and the edge
layer wiring order (`parse_and_fill_edge_layers_mapping`), and proves the
specified properties about them.
-/

namespace Hailo

deriving instance DecidableEq for Except

/-- Status codes of the fallible paths we model.  `invalidHef` stands for
`HAILO_INVALID_HEF` (the spec calls this class of failures `InvalidProgram`)
and `internalFailure` for `HAILO_INTERNAL_FAILURE` (`Internal`). -/
inductive HailoStatus where
  | invalidHef
  | internalFailure
deriving DecidableEq, Repr

/-- The `CONTROL_PROTOCOL__ACTION_TYPE_t` values used by the action classes in
`hef.cpp`.  `count` is `CONTROL_PROTOCOL__CONTEXT_SWITCH_ACTION_COUNT`, the
sentinel stored by actions that have no firmware wire representation. -/
inductive CtrlActionType where
  | disableLcu
  | enableLcuDefault
  | enableLcuNonDefault
  | triggerSequencer
  | waitForSequencerDone
  | triggerNewDataFromDataInput
  | waitForModuleConfigDone
  | addDdrPairInfo
  | addDdrBufferingStart
  | edgeLayerActivationActionsPosition
  | addRepeated
  | count
deriving DecidableEq, Repr

/-- The `ContextSwitchConfigAction::Type` enum of the action hierarchy in
`hef.cpp` (one constructor per concrete action class; `EnableLcuAction`
produces either of the two enable-lcu types). -/
inductive ActionType where
  | None
  | WriteData
  | WriteDataCcw
  | AddCcwBurst
  | CreateDescForCcw
  | AddRrepeated
  | StartBurstCreditsTask
  | DisableLcu
  | EnableLcuDefault
  | EnableLcuNonDefault
  | TriggerSequencer
  | WaitForSequencerDone
  | TriggerNewDataFromDataInput
  | TriggerNewDataFromDataInputDdr
  | WaitForModuleConfigDone
  | DdrPairInfo
  | StartDdrBufferingTask
  | EdgeLayerActivationActionsPositionMarker
deriving DecidableEq, Repr

/-- The virtual `supports_repeated_block()` of each action class in `hef.cpp`.
`AllowInputDataflowAction` answers per its `m_type` (false for the DDR
variant), all other classes answer a constant. -/
def supportsRepeatedBlock : ActionType → Bool
  | .None => false
  | .WriteData => false
  | .WriteDataCcw => false
  | .AddCcwBurst => false
  | .CreateDescForCcw => false
  | .AddRrepeated => false
  | .StartBurstCreditsTask => false
  | .DisableLcu => true
  | .EnableLcuDefault => true
  | .EnableLcuNonDefault => true
  | .TriggerSequencer => true
  | .WaitForSequencerDone => false
  | .TriggerNewDataFromDataInput => true
  | .TriggerNewDataFromDataInputDdr => false
  | .WaitForModuleConfigDone => false
  | .DdrPairInfo => true
  | .StartDdrBufferingTask => false
  | .EdgeLayerActivationActionsPositionMarker => false

/-- The `m_action_list_type` stored by each action class constructor in
`hef.cpp` (classes built through the `Type`-only base constructor store the
`COUNT` sentinel; both `AllowInputDataflowAction` variants store
`TRIGGER_NEW_DATA_FROM_DATA_INPUT`). -/
def actionListType : ActionType → CtrlActionType
  | .None => .count
  | .WriteData => .count
  | .WriteDataCcw => .count
  | .AddCcwBurst => .count
  | .CreateDescForCcw => .count
  | .AddRrepeated => .addRepeated
  | .StartBurstCreditsTask => .count
  | .DisableLcu => .disableLcu
  | .EnableLcuDefault => .enableLcuDefault
  | .EnableLcuNonDefault => .enableLcuNonDefault
  | .TriggerSequencer => .triggerSequencer
  | .WaitForSequencerDone => .waitForSequencerDone
  | .TriggerNewDataFromDataInput => .triggerNewDataFromDataInput
  | .TriggerNewDataFromDataInputDdr => .triggerNewDataFromDataInput
  | .WaitForModuleConfigDone => .waitForModuleConfigDone
  | .DdrPairInfo => .addDdrPairInfo
  | .StartDdrBufferingTask => .addDdrBufferingStart
  | .EdgeLayerActivationActionsPositionMarker => .edgeLayerActivationActionsPosition

/-- One `ContextSwitchConfigAction` value of `hef.cpp`.  `typ` is the result
of `get_type()`.  `param` abstracts the remaining per-variant payload (proto
fields, channel ids and so on, which the rewrite passes never inspect).
`cfgChannelIndex` is the `cfg_channel_index` of a `WriteDataCcwAction` and the
`config_stream_index` of the two fetch actions, `dataLength` the byte length
of a configuration-word write, `ccwBursts` the burst count stored by
`AddCcwBurstAction`, `numActions` and `subActionType` the payload of a
`RepeatedHeaderAction`, and `isInRepeatedBlock` the single mutable flag set
by `set_is_in_repeated_block`. -/
structure Action where
  typ : ActionType
  param : Nat := 0
  cfgChannelIndex : Nat := 0
  dataLength : Nat := 0
  ccwBursts : Nat := 0
  numActions : Nat := 0
  subActionType : CtrlActionType := .count
  isInRepeatedBlock : Bool := false
deriving DecidableEq, Repr

instance : Inhabited Action := ⟨{ typ := .None }⟩

/-- Convenience accessor for `actions[i]->get_type()` (indices used by the
source are always in bounds; out-of-bounds reads default). -/
def typAt (l : List Action) (i : Nat) : ActionType := (l.getD i default).typ

/-- Discard the mutable `is_in_repeated_block` flag of an action.  The C++
passes mutate this flag in place through shared pointers, so list entries
retain their identity; comparing actions through `clearRepeatedFlag` is the
value-semantics counterpart of that pointer identity. -/
def clearRepeatedFlag (a : Action) : Action := { a with isInRepeatedBlock := false }

/-- The inner loop of `get_repreated_actions_boundary_indices`: starting from
`e`, advance while the action type still equals `t` (the type at the start of
the run); return the first index where the run stops.  The loop advances by
one index per iteration and never passes `l.length`, so running it with
`l.length` fuel computes exactly the unbounded source loop. -/
def runEnd (l : List Action) (t : ActionType) : Nat → Nat → Nat
  | 0, e => e
  | fuel + 1, e =>
    if e < l.length then
      (if typAt l e = t then runEnd l t fuel (e + 1) else e)
    else e

theorem le_runEnd (l : List Action) (t : ActionType) :
    ∀ fuel e, e ≤ runEnd l t fuel e := by
  intro fuel
  induction fuel with
  | zero => intro e; simp [runEnd]
  | succ fuel ih =>
    intro e
    by_cases h : e < l.length
    · by_cases ht : typAt l e = t
      · rw [runEnd, if_pos h, if_pos ht]
        have := ih (e + 1)
        omega
      · rw [runEnd, if_pos h, if_neg ht]
    · rw [runEnd, if_neg h]

/-- Dropping the length of the taken prefix leaves the dropped suffix. -/
theorem drop_length_takeWhile (p : Action → Bool) (l : List Action) :
    l.drop (l.takeWhile p).length = l.dropWhile p := by
  have h := List.takeWhile_append_dropWhile p l
  calc l.drop (l.takeWhile p).length
      = (l.takeWhile p ++ l.dropWhile p).drop (l.takeWhile p).length := by rw [h]
    _ = l.dropWhile p := by rw [List.drop_left]

/-- An in-bounds drop exposes the indexed element. -/
theorem drop_eq_getD_cons (l : List Action) (e : Nat) (h : e < l.length) :
    l.drop e = l.getD e default :: l.drop (e + 1) := by
  rw [List.getD_eq_getElem l default h]
  exact List.drop_eq_getElem_cons h

/-- Characterization of `runEnd` by `takeWhile` on the dropped suffix, for any
sufficient fuel. -/
theorem runEnd_eq_takeWhile (l : List Action) (t : ActionType) :
    ∀ fuel e, l.length ≤ fuel + e →
    runEnd l t fuel e = e + ((l.drop e).takeWhile (fun x => x.typ == t)).length := by
  intro fuel
  induction fuel with
  | zero =>
    intro e hle
    have : l.drop e = [] := List.drop_eq_nil_of_le (by omega)
    simp [runEnd, this]
  | succ fuel ih =>
    intro e hle
    by_cases h : e < l.length
    · by_cases ht : typAt l e = t
      · have ht2 : (l.getD e default).typ = t := ht
        rw [runEnd, if_pos h, if_pos ht, ih (e + 1) (by omega), drop_eq_getD_cons l e h]
        simp only [List.takeWhile_cons, ht2, beq_self_eq_true, if_true, List.length_cons]
        omega
      · have ht2 : ¬ (l.getD e default).typ = t := ht
        rw [runEnd, if_pos h, if_neg ht, drop_eq_getD_cons l e h]
        have hb : ((l.getD e default).typ == t) = false := by
          simp only [beq_eq_false_iff_ne, ne_eq]
          exact ht2
        simp [List.takeWhile_cons, hb]
        have hgd : l.getD e default = (l[e]?).getD default := List.getD_eq_getElem?_getD l e default
        rw [← hgd]
        exact ht2
    · rw [runEnd, if_neg h]
      have : l.drop e = [] := List.drop_eq_nil_of_le (by omega)
      simp [this]

/-- The outer loop of `get_repreated_actions_boundary_indices`: emit the
inclusive `[start, end]` pair of each maximal same-type run, starting the
scan at index `s`.  Each iteration advances the scan position by at least
one, so `l.length` fuel computes exactly the unbounded source loop. -/
def boundariesGo (l : List Action) : Nat → Nat → List (Nat × Nat)
  | 0, _ => []
  | fuel + 1, s =>
    if s < l.length then
      (s, runEnd l (typAt l s) l.length (s + 1) - 1)
        :: boundariesGo l fuel (runEnd l (typAt l s) l.length (s + 1))
    else []

/-- `get_repreated_actions_boundary_indices` of `hef.cpp`: the list of
inclusive index intervals of the maximal runs of equal `get_type()`. -/
def boundaries (l : List Action) : List (Nat × Nat) := boundariesGo l l.length 0

/-- Decomposition of a list into its maximal runs of equal type, with fuel
(each step removes at least the head, so length fuel suffices). -/
def runsOfGo : Nat → List Action → List (List Action)
  | 0, _ => []
  | _ + 1, [] => []
  | fuel + 1, a :: rest =>
      (a :: rest.takeWhile (fun x => x.typ == a.typ)) ::
        runsOfGo fuel (rest.dropWhile (fun x => x.typ == a.typ))

/-- Decomposition of an action list into its maximal runs of equal type
(the list counterpart of `boundaries`, used to state and prove the
properties of the passes). -/
def runsOf (l : List Action) : List (List Action) := runsOfGo l.length l

theorem runsOfGo_nil (fuel : Nat) : runsOfGo fuel [] = [] := by
  cases fuel <;> rfl

theorem length_dropWhile_le (p : Action → Bool) (l : List Action) :
    (l.dropWhile p).length ≤ l.length :=
  List.Sublist.length_le (List.dropWhile_sublist p)

theorem runsOfGo_fuel : ∀ f1 f2 (l : List Action), l.length ≤ f1 → l.length ≤ f2 →
    runsOfGo f1 l = runsOfGo f2 l := by
  intro f1
  induction f1 with
  | zero =>
    intro f2 l h1 h2
    have : l = [] := List.length_eq_zero.mp (by omega)
    subst this
    rw [runsOfGo_nil, runsOfGo_nil]
  | succ f1 ih =>
    intro f2 l h1 h2
    cases l with
    | nil => rw [runsOfGo_nil, runsOfGo_nil]
    | cons a rest =>
      cases f2 with
      | zero => simp at h2
      | succ f2 =>
        rw [runsOfGo, runsOfGo]
        congr 1
        have hd := length_dropWhile_le (fun x => x.typ == a.typ) rest
        simp only [List.length_cons] at h1 h2
        exact ih f2 _ (by omega) (by omega)

theorem runsOf_cons (a : Action) (rest : List Action) :
    runsOf (a :: rest) = (a :: rest.takeWhile (fun x => x.typ == a.typ)) ::
      runsOf (rest.dropWhile (fun x => x.typ == a.typ)) := by
  show runsOfGo (rest.length + 1) (a :: rest) = _
  rw [runsOfGo]
  congr 1
  have hd := length_dropWhile_le (fun x => x.typ == a.typ) rest
  exact runsOfGo_fuel rest.length _ _ (by omega) (le_refl _)

/-- Inclusive index intervals of a run decomposition starting at offset `s`. -/
def runIntervals (s : Nat) : List (List Action) → List (Nat × Nat)
  | [] => []
  | r :: rs => (s, s + r.length - 1) :: runIntervals (s + r.length) rs

theorem runsOf_flatten : ∀ l : List Action, (runsOf l).flatten = l := by
  have main : ∀ fuel (l : List Action), l.length ≤ fuel → (runsOfGo fuel l).flatten = l := by
    intro fuel
    induction fuel with
    | zero =>
      intro l h
      have : l = [] := List.length_eq_zero.mp (by omega)
      subst this
      simp [runsOfGo_nil]
    | succ fuel ih =>
      intro l h
      cases l with
      | nil => simp [runsOfGo_nil]
      | cons a rest =>
        rw [runsOfGo]
        have hd := length_dropWhile_le (fun x => x.typ == a.typ) rest
        simp only [List.length_cons] at h
        simp only [List.flatten_cons,
          ih (rest.dropWhile (fun x => x.typ == a.typ)) (by omega)]
        rw [List.cons_append, List.takeWhile_append_dropWhile]
  intro l
  exact main l.length l (le_refl _)

theorem runsOf_ne_nil (l : List Action) (r : List Action) (hr : r ∈ runsOf l) : r ≠ [] := by
  have main : ∀ fuel (l : List Action) r, r ∈ runsOfGo fuel l → r ≠ [] := by
    intro fuel
    induction fuel with
    | zero => intro l r hr; simp [runsOfGo] at hr
    | succ fuel ih =>
      intro l r hr
      cases l with
      | nil => rw [runsOfGo_nil] at hr; simp at hr
      | cons a rest =>
        rw [runsOfGo] at hr
        rcases List.mem_cons.mp hr with h | h
        · subst h; simp
        · exact ih _ r h
  exact main l.length l r hr

/-- The bridge between the index-based source computation and the structural
run decomposition: `boundariesGo` from position `s` produces exactly the
intervals of the runs of the dropped suffix. -/
theorem boundariesGo_eq_runIntervals (l : List Action) :
    ∀ fuel s, l.length ≤ fuel + s →
    boundariesGo l fuel s = runIntervals s (runsOf (l.drop s)) := by
  intro fuel
  induction fuel with
  | zero =>
    intro s hle
    have hd : l.drop s = [] := List.drop_eq_nil_of_le (by omega)
    rw [hd]
    simp [boundariesGo, runsOf, runsOfGo_nil, runIntervals]
  | succ fuel ih =>
    intro s hle
    by_cases h : s < l.length
    · rw [boundariesGo, if_pos h]
      rw [drop_eq_getD_cons l s h, runsOf_cons, runIntervals]
      have hre : runEnd l (typAt l s) l.length (s + 1)
          = s + 1 + ((l.drop (s + 1)).takeWhile (fun x => x.typ == typAt l s)).length :=
        runEnd_eq_takeWhile l (typAt l s) l.length (s + 1) (by omega)
      have hty : (fun x : Action => x.typ == (l.getD s default).typ)
          = (fun x : Action => x.typ == typAt l s) := rfl
      congr 1
      · rw [hre, hty]
        simp only [List.length_cons]
        congr 1
        omega
      · have hge := le_runEnd l (typAt l s) l.length (s + 1)
        rw [ih (runEnd l (typAt l s) l.length (s + 1)) (by omega), hty]
        have hdrop : l.drop (runEnd l (typAt l s) l.length (s + 1))
            = (l.drop (s + 1)).dropWhile (fun x => x.typ == typAt l s) := by
          rw [hre, ← List.drop_drop
            ((l.drop (s + 1)).takeWhile (fun x => x.typ == typAt l s)).length (s + 1) l]
          exact drop_length_takeWhile _ _
        rw [hdrop, hre]
        congr 1
        simp only [List.length_cons]
        omega
    · rw [boundariesGo, if_neg h]
      have hd : l.drop s = [] := List.drop_eq_nil_of_le (by omega)
      rw [hd]
      simp [runsOf, runsOfGo_nil, runIntervals]

theorem boundaries_eq_runIntervals (l : List Action) :
    boundaries l = runIntervals 0 (runsOf l) := by
  have := boundariesGo_eq_runIntervals l l.length 0 (by omega)
  simpa [boundaries] using this

theorem getD_drop (l : List Action) (s i : Nat) :
    (l.drop s).getD i default = l.getD (s + i) default := by
  simp [List.getD_eq_getElem?_getD, List.getElem?_drop]

theorem getD_take (l : List Action) (k i : Nat) (h : i < k) :
    (l.take k).getD i default = l.getD i default := by
  simp [List.getD_eq_getElem?_getD, List.getElem?_take, h]

theorem getD_mem (l : List Action) (i : Nat) (h : i < l.length) :
    l.getD i default ∈ l := by
  rw [List.getD_eq_getElem l default h]
  exact List.getElem_mem h

/-- Every member of a run produced by `runsOf` has the type of the run head. -/
theorem runsOf_uniform (l : List Action) (r : List Action) (hr : r ∈ runsOf l) :
    ∀ a ∈ r, a.typ = typAt r 0 := by
  have main : ∀ fuel (l : List Action) r, r ∈ runsOfGo fuel l → ∀ a ∈ r, a.typ = typAt r 0 := by
    intro fuel
    induction fuel with
    | zero => intro l r hr; simp [runsOfGo] at hr
    | succ fuel ih =>
      intro l r hr
      cases l with
      | nil => rw [runsOfGo_nil] at hr; simp at hr
      | cons a rest =>
        rw [runsOfGo] at hr
        rcases List.mem_cons.mp hr with h | h
        · subst h
          intro x hx
          rcases List.mem_cons.mp hx with h | h
          · subst h; rfl
          · have := List.mem_takeWhile_imp h
            simp only [beq_iff_eq] at this
            simpa [typAt] using this
        · exact ih _ r h
  exact main l.length l r hr

/-- The consecutive runs of `runsOf` have pairwise different head types. -/
def runsTypesChain : List (List Action) → Prop
  | r1 :: r2 :: rs => typAt r2 0 ≠ typAt r1 0 ∧ runsTypesChain (r2 :: rs)
  | _ => True

theorem head_dropWhile_not (p : Action → Bool) (l : List Action)
    (h : l.dropWhile p ≠ []) : p ((l.dropWhile p).getD 0 default) = false := by
  induction l with
  | nil => simp at h
  | cons a rest ih =>
    by_cases hp : p a = true
    · rw [List.dropWhile_cons_of_pos hp] at h ⊢
      exact ih h
    · have hp2 : p a = false := by simpa using hp
      rw [List.dropWhile_cons_of_neg (by simp [hp2])] at h ⊢
      simpa using hp2

theorem runsOf_chain (l : List Action) : runsTypesChain (runsOf l) := by
  have main : ∀ fuel (l : List Action), l.length ≤ fuel → runsTypesChain (runsOfGo fuel l) := by
    intro fuel
    induction fuel with
    | zero =>
      intro l h
      have : l = [] := List.length_eq_zero.mp (by omega)
      subst this
      simp [runsOfGo_nil, runsTypesChain]
    | succ fuel ih =>
      intro l h
      cases l with
      | nil => rw [runsOfGo_nil]; simp [runsTypesChain]
      | cons a rest =>
        rw [runsOfGo]
        set rest2 := rest.dropWhile (fun x => x.typ == a.typ) with hrest2
        have hd := length_dropWhile_le (fun x => x.typ == a.typ) rest
        simp only [List.length_cons] at h
        have hfl : rest2.length ≤ fuel := by rw [hrest2]; omega
        match hm : runsOfGo fuel rest2 with
        | [] => simp [runsTypesChain]
        | r2 :: rs =>
          constructor
          · have hne : rest2 ≠ [] := by
              intro hnil
              rw [hnil, runsOfGo_nil] at hm
              simp at hm
            have hr2 : r2 = (rest2.getD 0 default) ::
                (rest2.drop 1).takeWhile (fun x => x.typ == (rest2.getD 0 default).typ) := by
              match hrest : rest2, hfl, hm with
              | b :: rest3, hfl2, hm2 =>
                cases fuel with
                | zero => simp at hfl2
                | succ fuel2 =>
                  rw [runsOfGo] at hm2
                  have := (List.cons.injEq _ _ _ _).mp hm2
                  simp [this.1]
            have hfail := head_dropWhile_not (fun x => x.typ == a.typ) rest hne
            simp only [beq_eq_false_iff_ne, ne_eq] at hfail
            simp only [typAt, hr2]
            simpa using hfail
          · have := ih rest2 hfl
            rwa [hm] at this
  have : runsTypesChain (runsOfGo l.length l) := main l.length l (le_refl _)
  exact this

/-- Total length of a run decomposition. -/
def totalLen (rs : List (List Action)) : Nat := (rs.map List.length).sum

theorem totalLen_runsOf (l : List Action) : totalLen (runsOf l) = l.length := by
  have := runsOf_flatten l
  calc totalLen (runsOf l) = (runsOf l).flatten.length := by
        rw [totalLen, List.length_flatten]
    _ = l.length := by rw [this]

/-- The intervals `ps`, starting at `s`, are nonempty, contiguous, increasing
and exactly cover `[s, n)`. -/
def intervalsFromB (n : Nat) : Nat → List (Nat × Nat) → Bool
  | s, [] => s == n
  | s, p :: ps => (p.1 == s) && decide (s ≤ p.2) && decide (p.2 < n)
      && intervalsFromB n (p.2 + 1) ps

theorem runIntervals_intervalsFromB (rs : List (List Action)) :
    ∀ s, (∀ r ∈ rs, r ≠ []) → intervalsFromB (s + totalLen rs) s (runIntervals s rs) = true := by
  induction rs with
  | nil => intro s hne; simp [runIntervals, intervalsFromB, totalLen]
  | cons r rs ih =>
    intro s hne
    have hr : r ≠ [] := hne r (by simp)
    have hrlen : 1 ≤ r.length := by
      cases r with
      | nil => simp at hr
      | cons x xs => simp
    have htl : totalLen (r :: rs) = r.length + totalLen rs := by
      simp [totalLen]
    rw [runIntervals, intervalsFromB]
    have h1 : s + r.length - 1 + 1 = s + r.length := by omega
    have ih2 := ih (s + r.length) (fun x hx => hne x (by simp [hx]))
    simp only [beq_self_eq_true, Bool.true_and, Bool.and_eq_true, decide_eq_true_eq]
    refine ⟨⟨by omega, by omega⟩, ?_⟩
    rw [h1]
    have : s + totalLen (r :: rs) = s + r.length + totalLen rs := by rw [htl]; omega
    rw [this]
    exact ih2

/-- Each interval of a run decomposition carves out exactly its run as a
contiguous segment of the underlying list. -/
theorem runIntervals_segments (rs : List (List Action)) :
    ∀ (l : List Action) s, l.drop s = rs.flatten → (∀ r ∈ rs, r ≠ []) →
    ∀ p ∈ runIntervals s rs, ∃ r ∈ rs,
      (l.drop p.1).take (p.2 + 1 - p.1) = r ∧ p.2 + 1 - p.1 = r.length ∧ s ≤ p.1 := by
  induction rs with
  | nil => intro l s _ _ p hp; simp [runIntervals] at hp
  | cons r rs ih =>
    intro l s hdrop hne p hp
    have hr : r ≠ [] := hne r (by simp)
    have hrlen : 1 ≤ r.length := by
      cases r with
      | nil => simp at hr
      | cons x xs => simp
    rw [runIntervals] at hp
    rcases List.mem_cons.mp hp with h | h
    · subst h
      refine ⟨r, by simp, ?_, by simp; omega, by simp⟩
      simp only
      have h1 : s + r.length - 1 + 1 - s = r.length := by omega
      rw [h1, hdrop]
      simp only [List.flatten_cons]
      exact List.take_left r rs.flatten
    · have hdrop2 : l.drop (s + r.length) = rs.flatten := by
        rw [← List.drop_drop r.length s l, hdrop]
        simp [List.flatten_cons, List.drop_left]
      obtain ⟨r2, hr2, hseg, hlen, hle⟩ :=
        ih l (s + r.length) hdrop2 (fun x hx => hne x (by simp [hx])) p h
      exact ⟨r2, by simp [hr2], hseg, hlen, by omega⟩

/-- If the dropped suffix starts with the nonempty block `r`, the type at the
drop position is the type of the head of `r`. -/
theorem typAt_of_drop_append (l : List Action) (s : Nat) (r x : List Action)
    (hdrop : l.drop s = r ++ x) (hr : r ≠ []) : typAt l s = typAt r 0 := by
  have h0 : typAt l s = typAt (l.drop s) 0 := by
    simp only [typAt]
    rw [getD_drop l s 0, Nat.add_zero]
  rw [h0, hdrop]
  cases r with
  | nil => simp at hr
  | cons b rest => simp [typAt]

/-- Adjacent intervals carry different action types. -/
def adjacentTypesDiffer (l : List Action) : List (Nat × Nat) → Prop
  | p :: q :: ps => typAt l q.1 ≠ typAt l p.1 ∧ adjacentTypesDiffer l (q :: ps)
  | _ => True

theorem runIntervals_adjacent (rs : List (List Action)) :
    ∀ (l : List Action) s, l.drop s = rs.flatten → (∀ r ∈ rs, r ≠ []) →
    runsTypesChain rs → adjacentTypesDiffer l (runIntervals s rs) := by
  induction rs with
  | nil => intro l s _ _ _; simp [runIntervals, adjacentTypesDiffer]
  | cons r1 rs ih =>
    intro l s hdrop hne hchain
    cases rs with
    | nil => simp [runIntervals, adjacentTypesDiffer]
    | cons r2 rs2 =>
      have hr1 : r1 ≠ [] := hne r1 (by simp)
      have hr2 : r2 ≠ [] := hne r2 (by simp)
      have hdrop1 : l.drop s = r1 ++ (r2 :: rs2).flatten := by
        simpa [List.flatten_cons] using hdrop
      have hdrop2 : l.drop (s + r1.length) = (r2 :: rs2).flatten := by
        rw [← List.drop_drop r1.length s l, hdrop1, List.drop_left]
      have hdrop2b : l.drop (s + r1.length) = r2 ++ rs2.flatten := by
        simpa [List.flatten_cons] using hdrop2
      obtain ⟨hdiff, hchain2⟩ := hchain
      show typAt l (s + r1.length) ≠ typAt l s ∧ _
      constructor
      · rw [typAt_of_drop_append l s r1 _ hdrop1 hr1,
          typAt_of_drop_append l (s + r1.length) r2 _ hdrop2b hr2]
        exact hdiff
      · exact ih l (s + r1.length) hdrop2 (fun x hx => hne x (by simp [hx])) hchain2

/-- Inside any interval of `boundaries`, all actions share the type of the
interval start. -/
theorem boundaries_uniform (l : List Action) (p : Nat × Nat) (hp : p ∈ boundaries l)
    (i : Nat) (h1 : p.1 ≤ i) (h2 : i ≤ p.2) : typAt l i = typAt l p.1 := by
  rw [boundaries_eq_runIntervals] at hp
  obtain ⟨r, hr, hseg, hlen, -⟩ := runIntervals_segments (runsOf l) l 0
    (by simpa using (runsOf_flatten l).symm) (runsOf_ne_nil l) p hp
  have key : ∀ j, p.1 + j ≤ p.2 → typAt l (p.1 + j) = typAt r 0 := by
    intro j hj
    have hjr : j < r.length := by omega
    have e1 : typAt l (p.1 + j) = typAt (l.drop p.1) j := by
      simp only [typAt]
      rw [getD_drop l p.1 j]
    have e2 : typAt (l.drop p.1) j = typAt ((l.drop p.1).take (p.2 + 1 - p.1)) j := by
      simp only [typAt]
      rw [getD_take (l.drop p.1) (p.2 + 1 - p.1) j (by omega)]
    have e3 : typAt ((l.drop p.1).take (p.2 + 1 - p.1)) j = typAt r j := by rw [hseg]
    have e4 : typAt r j = typAt r 0 := by
      have hm : r.getD j default ∈ r := getD_mem r j hjr
      exact runsOf_uniform l r hr _ hm
    rw [e1, e2, e3, e4]
  have hi : typAt l i = typAt r 0 := by
    have := key (i - p.1) (by omega)
    have heq : p.1 + (i - p.1) = i := by omega
    rwa [heq] at this
  have hs : typAt l p.1 = typAt r 0 := by
    have := key 0 (by omega)
    simpa using this
  rw [hi, hs]

/-- The boundary intervals of a list form a partition of `[0, length)` in
the `intervalsFromB` sense. -/
lemma boundaries_intervalsFromB (l : List Action) :
    intervalsFromB l.length 0 (boundaries l) = true := by
  rw [boundaries_eq_runIntervals]
  have := runIntervals_intervalsFromB (runsOf l) 0 (runsOf_ne_nil l)
  rwa [totalLen_runsOf, Nat.zero_add] at this

/-- C10 assembly: the boundary computation used by all three passes partitions
the index range into maximal uniform-type runs. -/
theorem boundaries_partition (l : List Action) :
    intervalsFromB l.length 0 (boundaries l) = true
    ∧ (∀ p ∈ boundaries l, ∀ i, p.1 ≤ i → i ≤ p.2 → typAt l i = typAt l p.1)
    ∧ adjacentTypesDiffer l (boundaries l) := by
  refine ⟨boundaries_intervalsFromB l, ?_, ?_⟩
  · intro p hp i h1 h2
    exact boundaries_uniform l p hp i h1 h2
  · rw [boundaries_eq_runIntervals]
    exact runIntervals_adjacent (runsOf l) l 0
      (by simpa using (runsOf_flatten l).symm) (runsOf_ne_nil l) (runsOf_chain l)

/-- Witness: uniformity of a boundary run on a concrete two-action list. -/
theorem boundaries_partition_witness :
    typAt [{ typ := .DisableLcu }, { typ := .EnableLcuDefault }] 1
      = typAt [{ typ := .DisableLcu }, { typ := .EnableLcuDefault }] ((1, 1) : Nat × Nat).1 :=
  (boundaries_partition [{ typ := .DisableLcu }, { typ := .EnableLcuDefault }]).2.1
    (1, 1) (by decide) 1 (by decide) (by decide)

/-- The `RepeatedHeaderAction::create` factory of `hef.cpp`: refuses the
`ADD_REPEATED` and `COUNT` sentinels as sub-action type and a zero count
(the `num_actions` parameter is a `uint8_t`, so counts above 255 are not
even expressible at this interface). -/
def RepeatedHeaderAction.create (subActionType : CtrlActionType) (numActions : Nat) :
    Except HailoStatus Action :=
  if subActionType = .addRepeated then .error .invalidHef
  else if subActionType = .count then .error .invalidHef
  else if numActions = 0 then .error .invalidHef
  else .ok { typ := .AddRrepeated, subActionType := subActionType, numActions := numActions }

/-- The inner chunking loop of `get_start_indexes_of_repeated_actions`: chop
the inclusive run `[startIdx, endIdx]` greedily into chunks of at most 255,
stopping when fewer than `MIN_REQUIRED_FOR_MERGING = 2` actions remain.
Each iteration advances the start by the chunk size (at least 2), so
`endIdx + 1 - startIdx` fuel computes exactly the unbounded source loop. -/
def chunkStartsGo : Nat → Nat → Nat → List (Nat × Nat)
  | 0, _, _ => []
  | fuel + 1, startIdx, endIdx =>
    if startIdx < endIdx then
      (if min 255 (endIdx - startIdx + 1) < 2 then []
       else (startIdx, min 255 (endIdx - startIdx + 1))
          :: chunkStartsGo fuel (startIdx + min 255 (endIdx - startIdx + 1)) endIdx)
    else []

def chunkStarts (startIdx endIdx : Nat) : List (Nat × Nat) :=
  chunkStartsGo (endIdx + 1 - startIdx) startIdx endIdx

/-- The `get_start_indexes_of_repeated_actions` map of `hef.cpp` (the
`action_types_denylist` parameter is defaulted to the empty set at its only
call site, so it is omitted): for each boundary run whose first action
supports repeated blocks, the chunk start indexes with their chunk sizes. -/
def getStartIndexes (l : List Action) (ri : List (Nat × Nat)) : List (Nat × Nat) :=
  ri.flatMap (fun p =>
    if supportsRepeatedBlock (typAt l p.1) then chunkStarts p.1 p.2 else [])

/-- Lookup in the start-index map (`contains` plus `at` of the `std::map`). -/
def lookupStart (starts : List (Nat × Nat)) (i : Nat) : Option Nat :=
  (starts.find? (fun q => q.1 == i)).map (fun q => q.2)

/-- The in-place flag-marking loop of `handle_repeated_actions`: set
`is_in_repeated_block` on the `c` actions starting at index `s`. -/
def setFlagRangeGo : List Action → Nat → Nat → Nat → List Action
  | [], _, _, _ => []
  | a :: rest, i, s, c =>
      (if s ≤ i ∧ i < s + c then { a with isInRepeatedBlock := true } else a)
        :: setFlagRangeGo rest (i + 1) s c

def setFlagRange (l : List Action) (s c : Nat) : List Action := setFlagRangeGo l 0 s c

/-- The rewrite loop of `handle_repeated_actions`: walk the action vector by
index; at each chunk start create and emit a `RepeatedHeaderAction`, mark the
chunk members in place, and emit the (possibly just marked) current action.
`fuel` is the vector length, which flag-marking never changes. -/
def hraGo (starts : List (Nat × Nat)) : Nat → List Action → Nat → Except HailoStatus (List Action)
  | 0, _, _ => .ok []
  | fuel + 1, acts, i =>
    match lookupStart starts i with
    | some c => do
        let header ← RepeatedHeaderAction.create (actionListType (typAt acts i)) c
        let acts2 := setFlagRange acts i c
        let rest ← hraGo starts fuel acts2 (i + 1)
        .ok (header :: acts2.getD i default :: rest)
    | none => do
        let rest ← hraGo starts fuel acts (i + 1)
        .ok (acts.getD i default :: rest)

/-- Rewrite pass C, `handle_repeated_actions` of `hef.cpp`. -/
def handleRepeatedActions (l : List Action) : Except HailoStatus (List Action) :=
  hraGo (getStartIndexes l (boundaries l)) l.length l 0

theorem setFlagRangeGo_length (l : List Action) :
    ∀ i s c, (setFlagRangeGo l i s c).length = l.length := by
  induction l with
  | nil => intro i s c; simp [setFlagRangeGo]
  | cons a rest ih => intro i s c; simp [setFlagRangeGo, ih]

theorem setFlagRangeGo_typ (l : List Action) :
    ∀ i s c j, ((setFlagRangeGo l i s c).getD j default).typ = (l.getD j default).typ := by
  induction l with
  | nil => intro i s c j; simp [setFlagRangeGo]
  | cons a rest ih =>
    intro i s c j
    cases j with
    | zero =>
      simp only [setFlagRangeGo, List.getD_cons_zero]
      split <;> rfl
    | succ j2 =>
      simp only [setFlagRangeGo, List.getD_cons_succ]
      exact ih (i + 1) s c j2

theorem setFlagRangeGo_clear (l : List Action) :
    ∀ i s c, (setFlagRangeGo l i s c).map clearRepeatedFlag = l.map clearRepeatedFlag := by
  induction l with
  | nil => intro i s c; simp [setFlagRangeGo]
  | cons a rest ih =>
    intro i s c
    simp only [setFlagRangeGo, List.map_cons, ih]
    congr 1
    split <;> rfl

theorem setFlagRange_typAt (l : List Action) (s c j : Nat) :
    typAt (setFlagRange l s c) j = typAt l j := by
  simp only [typAt, setFlagRange]
  exact setFlagRangeGo_typ l 0 s c j

theorem setFlagRange_length (l : List Action) (s c : Nat) :
    (setFlagRange l s c).length = l.length := setFlagRangeGo_length l 0 s c

theorem setFlagRange_clear (l : List Action) (s c : Nat) :
    (setFlagRange l s c).map clearRepeatedFlag = l.map clearRepeatedFlag :=
  setFlagRangeGo_clear l 0 s c

/-- Sub-action types that may sit under a repeated header. -/
def validHeaderData (t : ActionType) (c : Nat) : Prop :=
  actionListType t ≠ .addRepeated ∧ actionListType t ≠ .count ∧ c ≠ 0

theorem RepeatedHeaderAction.create_ok (t : ActionType) (c : Nat)
    (h : validHeaderData t c) :
    RepeatedHeaderAction.create (actionListType t) c
      = .ok { typ := .AddRrepeated, subActionType := actionListType t, numActions := c } := by
  obtain ⟨h1, h2, h3⟩ := h
  rw [RepeatedHeaderAction.create, if_neg h1, if_neg h2, if_neg h3]

/-- Unfolding equation of `hraGo` at a chunk start. -/
theorem hraGo_succ_some (starts : List (Nat × Nat)) (fuel : Nat) (acts : List Action)
    (i c : Nat) (hls : lookupStart starts i = some c) :
    hraGo starts (fuel + 1) acts i = (do
      let header ← RepeatedHeaderAction.create (actionListType (typAt acts i)) c
      let rest ← hraGo starts fuel (setFlagRange acts i c) (i + 1)
      .ok (header :: (setFlagRange acts i c).getD i default :: rest)) := by
  rw [hraGo, hls]

/-- Unfolding equation of `hraGo` away from chunk starts. -/
theorem hraGo_succ_none (starts : List (Nat × Nat)) (fuel : Nat) (acts : List Action)
    (i : Nat) (hls : lookupStart starts i = none) :
    hraGo starts (fuel + 1) acts i = (do
      let rest ← hraGo starts fuel acts (i + 1)
      .ok (acts.getD i default :: rest)) := by
  rw [hraGo, hls]

theorem getD_map_clear (m : List Action) (i : Nat) :
    (m.map clearRepeatedFlag).getD i default = clearRepeatedFlag (m.getD i default) := by
  simp only [List.getD_eq_getElem?_getD, List.getElem?_map]
  cases m[i]? <;> rfl

/-- Core characterization of the `handle_repeated_actions` loop: it succeeds,
and deleting all header actions from its output recovers the processed suffix
(up to the in-place `is_in_repeated_block` marking). -/
theorem hraGo_filter (starts : List (Nat × Nat)) :
    ∀ (fuel : Nat) (acts : List Action) (i : Nat), fuel + i = acts.length →
    (∀ j, j < acts.length → typAt acts j ≠ .AddRrepeated) →
    (∀ c j, lookupStart starts j = some c → j < acts.length → validHeaderData (typAt acts j) c) →
    ∃ out, hraGo starts fuel acts i = .ok out ∧
      (out.filter (fun a => a.typ != ActionType.AddRrepeated)).map clearRepeatedFlag
        = (acts.drop i).map clearRepeatedFlag := by
  intro fuel
  induction fuel with
  | zero =>
    intro acts i hlen hnh hval
    refine ⟨[], rfl, ?_⟩
    have : acts.drop i = [] := List.drop_eq_nil_of_le (by omega)
    simp [this]
  | succ fuel ih =>
    intro acts i hlen hnh hval
    have hi : i < acts.length := by omega
    have hdropi : acts.drop i = acts.getD i default :: acts.drop (i + 1) :=
      drop_eq_getD_cons acts i hi
    have hmem : typAt acts i ≠ .AddRrepeated := hnh i hi
    match hls : lookupStart starts i with
    | some c =>
      have hvi := hval c i hls hi
      have hcreate := RepeatedHeaderAction.create_ok (typAt acts i) c hvi
      have hlen2 : fuel + (i + 1) = (setFlagRange acts i c).length := by
        rw [setFlagRange_length]; omega
      have hnh2 : ∀ j, j < (setFlagRange acts i c).length →
          typAt (setFlagRange acts i c) j ≠ .AddRrepeated := by
        intro j hj
        rw [setFlagRange_typAt]
        exact hnh j (by rwa [setFlagRange_length] at hj)
      have hval2 : ∀ c2 j, lookupStart starts j = some c2 →
          j < (setFlagRange acts i c).length →
          validHeaderData (typAt (setFlagRange acts i c) j) c2 := by
        intro c2 j hl hj
        rw [setFlagRange_typAt]
        exact hval c2 j hl (by rwa [setFlagRange_length] at hj)
      obtain ⟨rest, hrest, hfr⟩ := ih (setFlagRange acts i c) (i + 1) hlen2 hnh2 hval2
      have hok : hraGo starts (fuel + 1) acts i
          = .ok (Action.mk .AddRrepeated 0 0 0 0 c (actionListType (typAt acts i)) false
            :: (setFlagRange acts i c).getD i default :: rest) := by
        rw [hraGo_succ_some starts fuel acts i c hls, hcreate, hrest]
        rfl
      refine ⟨_, hok, ?_⟩
      · have htypi : ((setFlagRange acts i c).getD i default).typ = typAt acts i := by
          have := setFlagRange_typAt acts i c i
          simpa [typAt] using this
        have hb2 : (((setFlagRange acts i c).getD i default).typ != ActionType.AddRrepeated) = true := by
          simp only [bne_iff_ne, ne_eq, htypi]
          exact hmem
        have hclr : clearRepeatedFlag ((setFlagRange acts i c).getD i default)
            = clearRepeatedFlag (acts.getD i default) := by
          have h1 := getD_map_clear (setFlagRange acts i c) i
          have h2 := getD_map_clear acts i
          rw [setFlagRange_clear] at h1
          rw [← h1, h2]
        have hdd : ((setFlagRange acts i c).drop (i + 1)).map clearRepeatedFlag
            = (acts.drop (i + 1)).map clearRepeatedFlag := by
          rw [List.map_drop, List.map_drop, setFlagRange_clear]
        have hcond1 : ¬ (((Action.mk .AddRrepeated 0 0 0 0 c (actionListType (typAt acts i))
            false).typ != ActionType.AddRrepeated) = true) := by simp
        rw [List.filter_cons, List.filter_cons, if_neg hcond1, if_pos hb2]
        rw [hdropi, List.map_cons, List.map_cons, hfr, hdd, hclr]
    | none =>
      obtain ⟨rest, hrest, hfr⟩ := ih acts (i + 1) (by omega) hnh hval
      refine ⟨acts.getD i default :: rest, ?_, ?_⟩
      · rw [hraGo_succ_none starts fuel acts i hls, hrest]
        rfl
      · have hb : ((acts.getD i default).typ != ActionType.AddRrepeated) = true := by
          simp only [bne_iff_ne, ne_eq]
          exact hmem
        rw [List.filter_cons, hb]
        simp only [if_true, List.map_cons, hfr, hdropi]

/-- Each chunk starts inside the run, has size between 2 and 255, and stays
inside the run (for any fuel). -/
theorem chunkStartsGo_spec :
    ∀ fuel s e, ∀ q ∈ chunkStartsGo fuel s e,
      s ≤ q.1 ∧ 2 ≤ q.2 ∧ q.2 ≤ 255 ∧ q.1 + q.2 ≤ e + 1 := by
  intro fuel
  induction fuel with
  | zero => intro s e q hq; simp [chunkStartsGo] at hq
  | succ fuel ih =>
    intro s e q hq
    by_cases h : s < e
    · rw [chunkStartsGo, if_pos h] at hq
      by_cases hc : min 255 (e - s + 1) < 2
      · rw [if_pos hc] at hq
        simp at hq
      · rw [if_neg hc] at hq
        rcases List.mem_cons.mp hq with h2 | h2
        · subst h2
          refine ⟨le_refl s, by omega, by omega, by omega⟩
        · obtain ⟨g1, g2, g3, g4⟩ := ih _ e q h2
          exact ⟨by omega, g2, g3, g4⟩
    · rw [chunkStartsGo, if_neg h] at hq
      simp at hq

theorem chunkStarts_spec (s e : Nat) :
    ∀ q ∈ chunkStarts s e, s ≤ q.1 ∧ 2 ≤ q.2 ∧ q.2 ≤ 255 ∧ q.1 + q.2 ≤ e + 1 :=
  chunkStartsGo_spec (e + 1 - s) s e

theorem lookupStart_mem (starts : List (Nat × Nat)) (j c : Nat)
    (h : lookupStart starts j = some c) : (j, c) ∈ starts := by
  unfold lookupStart at h
  match hf : starts.find? (fun q => q.1 == j) with
  | none => rw [hf] at h; simp at h
  | some q =>
    rw [hf] at h
    have hp := List.find?_some hf
    have hm := List.mem_of_find?_eq_some hf
    simp only [beq_iff_eq] at hp
    have h2 : q.2 = c := by simpa using h
    have hq : q = (j, c) := by
      cases q
      simp_all
    rwa [hq] at hm

/-- An action type that supports repeated blocks is a valid repeated-header
sub-action type. -/
theorem supports_validListType (t : ActionType) (h : supportsRepeatedBlock t = true) :
    actionListType t ≠ .addRepeated ∧ actionListType t ≠ .count := by
  cases t <;> simp_all [supportsRepeatedBlock, actionListType]

/-- Each emitted chunk lies in a uniform-type region whose type supports
repeated blocks, and has size between 2 and 255. -/
theorem getStartIndexes_spec (l : List Action) (q : Nat × Nat)
    (hq : q ∈ getStartIndexes l (boundaries l)) :
    supportsRepeatedBlock (typAt l q.1) = true ∧ 2 ≤ q.2 ∧ q.2 ≤ 255
      ∧ (∀ i, q.1 ≤ i → i < q.1 + q.2 → typAt l i = typAt l q.1) := by
  unfold getStartIndexes at hq
  obtain ⟨p, hp, hq2⟩ := List.mem_flatMap.mp hq
  by_cases hsup : supportsRepeatedBlock (typAt l p.1) = true
  · rw [if_pos hsup] at hq2
    obtain ⟨h1, h2, h3, h4⟩ := chunkStarts_spec p.1 p.2 q hq2
    have hq1p : typAt l q.1 = typAt l p.1 :=
      boundaries_uniform l p hp q.1 h1 (by omega)
    refine ⟨by rwa [hq1p], h2, h3, ?_⟩
    intro i hi1 hi2
    have hip : typAt l i = typAt l p.1 :=
      boundaries_uniform l p hp i (by omega) (by omega)
    rw [hip, hq1p]
  · rw [if_neg hsup] at hq2
    simp at hq2

/-- A disable-LCU instruction (compressible sample action). -/
def dlAction : Action := { typ := .DisableLcu }

/-- C1: compression round-trip.  `handle_repeated_actions` succeeds on any
parsed action list (one containing no repeated-header actions, which the HEF
parser never produces), and deleting all inserted `RepeatedHeaderAction`
entries from its output yields the input list unchanged in content and
order.  The pass marks chunk members through their shared pointers, so the
re-read input carries the same `is_in_repeated_block` marks as the output
members; `clearRepeatedFlag` on both sides expresses equality of the lists
up to that in-place mark. -/
theorem compression_round_trip (l : List Action)
    (hnh : ∀ a ∈ l, a.typ ≠ ActionType.AddRrepeated) :
    ∃ out, handleRepeatedActions l = .ok out ∧
      (out.filter (fun a => a.typ != ActionType.AddRrepeated)).map clearRepeatedFlag
        = l.map clearRepeatedFlag := by
  have hval : ∀ c j, lookupStart (getStartIndexes l (boundaries l)) j = some c →
      j < l.length → validHeaderData (typAt l j) c := by
    intro c j hl _
    have hmem := lookupStart_mem _ _ _ hl
    obtain ⟨hsup, h2, -, -⟩ := getStartIndexes_spec l (j, c) hmem
    obtain ⟨hv1, hv2⟩ := supports_validListType _ hsup
    exact ⟨hv1, hv2, by omega⟩
  obtain ⟨out, hok, hfl⟩ := hraGo_filter (getStartIndexes l (boundaries l)) l.length l 0
    (by omega) (fun j hj => hnh _ (getD_mem l j hj)) hval
  refine ⟨out, hok, ?_⟩
  simpa using hfl

/-- Witness: the round trip on a concrete two-action compressible list. -/
theorem compression_round_trip_witness :
    ∃ out, handleRepeatedActions [dlAction, dlAction] = .ok out ∧
      (out.filter (fun a => a.typ != ActionType.AddRrepeated)).map clearRepeatedFlag
        = [dlAction, dlAction].map clearRepeatedFlag :=
  compression_round_trip [dlAction, dlAction] (by decide)

set_option maxRecDepth 100000 in
/-- C3: chunking bounds of the compression pass.  Every chunk the pass forms
has size at least 2 and at most 255, starts at an action whose type supports
repeated blocks, and never crosses a type boundary; a compressible run of
300 identical instructions yields exactly the two chunks 255 and 45. -/
theorem repeated_chunking_bounds :
    (∀ (l : List Action) (q : Nat × Nat), q ∈ getStartIndexes l (boundaries l) →
      2 ≤ q.2 ∧ q.2 ≤ 255 ∧ supportsRepeatedBlock (typAt l q.1) = true
        ∧ (∀ i, q.1 ≤ i → i < q.1 + q.2 → typAt l i = typAt l q.1))
    ∧ getStartIndexes (List.replicate 300 dlAction) (boundaries (List.replicate 300 dlAction))
        = [(0, 255), (255, 45)] := by
  constructor
  · intro l q hq
    obtain ⟨hs, h2, h3, h4⟩ := getStartIndexes_spec l q hq
    exact ⟨h2, h3, hs, h4⟩
  · decide

/-- The `get_indexes_of_action_type` helper of `hef.cpp`: the boundary runs
whose first action has the required type. -/
def indexesOfType (l : List Action) (t : ActionType) : List (Nat × Nat) :=
  (boundaries l).filter (fun p => typAt l p.1 == t)

/-- The `get_end_indexes_of_action_type` helper of `hef.cpp`. -/
def endIndexesOfType (l : List Action) (t : ActionType) : List Nat :=
  (indexesOfType l t).map (fun p => p.2)

/-- The flags consulted by `handle_edge_layer_activation_actions`:
`is_preliminary_context`, the `preliminary_run_asap` supported feature, and
`is_first_operation`. -/
structure OperationCfg where
  isPreliminaryContext : Bool
  preliminaryRunAsap : Bool
  isFirstOperation : Bool
deriving DecidableEq, Repr

/-- One DDR channels pair of the resources manager, as consulted by
`add_ddr_buffers_info`: whether it needs manual credit management, and the
packed payload (`h2d_channel_id`, `d2h_channel_id`, `descriptors_per_frame`,
`descs_count`) handed to `DdrPairInfoAction::create`. -/
structure DdrPairRec where
  needManualCreditManagement : Bool
  payload : Nat
deriving DecidableEq, Repr

def markerAction : Action := { typ := .EdgeLayerActivationActionsPositionMarker }

def burstCreditsAction : Action := { typ := .StartBurstCreditsTask }

/-- The `add_ddr_buffers_info` helper of `hef.cpp`: one `DdrPairInfoAction`
per pair that needs manual credit management, in order, followed by a single
`StartDdrBufferingTaskAction` when any such pair exists. -/
def addDdrBuffersInfo (pairs : List DdrPairRec) : List Action :=
  ((pairs.filter (fun p => p.needManualCreditManagement)).map
      (fun p => { typ := .DdrPairInfo, param := p.payload }))
    ++ (if pairs.any (fun p => p.needManualCreditManagement)
        then [{ typ := .StartDdrBufferingTask }] else [])

/-- The `proccess_trigger_new_data_input_action` helper of `hef.cpp` (source
spelling kept): at the group start emit the position marker and the DDR
buffer info actions, then the current action, and at the group end append
the `StartBurstCreditsTaskAction`. -/
def proccessTriggerNewDataInputAction (gs ge i : Nat) (pairs : List DdrPairRec)
    (a : Action) : List Action :=
  (if gs = i then markerAction :: addDdrBuffersInfo pairs else []) ++ [a]
    ++ (if ge = i then [burstCreditsAction] else [])

/-- The rewrite loop of `handle_edge_layer_activation_actions`. -/
def heGo (gs ge : Nat) (pairs : List DdrPairRec) : List Action → Nat → List Action
  | [], _ => []
  | a :: rest, i =>
      (if a.typ = .TriggerNewDataFromDataInput
       then proccessTriggerNewDataInputAction gs ge i pairs a
       else [a]) ++ heGo gs ge pairs rest (i + 1)

/-- The operations on which pass B actually rewrites (the complement of the
two early returns of `handle_edge_layer_activation_actions`). -/
def eligibleForEdgeActivation (cfg : OperationCfg) : Bool :=
  (cfg.isPreliminaryContext && cfg.preliminaryRunAsap)
    || (!cfg.isPreliminaryContext && cfg.isFirstOperation)

/-- Rewrite pass B, `handle_edge_layer_activation_actions` of `hef.cpp`:
skip ineligible operations; require exactly one maximal run of
`TriggerNewDataFromDataInput` actions (else `HAILO_INTERNAL_FAILURE`), then
place the marker, the DDR pair info actions and the credit-task action
around that run. -/
def handleEdgeLayerActivationActions (cfg : OperationCfg) (pairs : List DdrPairRec)
    (l : List Action) : Except HailoStatus (List Action) :=
  if cfg.isPreliminaryContext && !cfg.preliminaryRunAsap then .ok l
  else if !cfg.isPreliminaryContext && !cfg.isFirstOperation then .ok l
  else
    match indexesOfType l .TriggerNewDataFromDataInput with
    | [(gs, ge)] => .ok (heGo gs ge pairs l 0)
    | _ => .error .internalFailure

theorem handleEdge_not_eligible (cfg : OperationCfg) (pairs : List DdrPairRec)
    (l : List Action) (h : eligibleForEdgeActivation cfg = false) :
    handleEdgeLayerActivationActions cfg pairs l = .ok l := by
  obtain ⟨p, asap, first⟩ := cfg
  cases p <;> cases asap <;> cases first <;>
    simp_all [handleEdgeLayerActivationActions, eligibleForEdgeActivation]

theorem handleEdge_eligible (cfg : OperationCfg) (pairs : List DdrPairRec)
    (l : List Action) (h : eligibleForEdgeActivation cfg = true) :
    handleEdgeLayerActivationActions cfg pairs l
      = (match indexesOfType l .TriggerNewDataFromDataInput with
        | [(gs, ge)] => .ok (heGo gs ge pairs l 0)
        | _ => .error .internalFailure) := by
  obtain ⟨p, asap, first⟩ := cfg
  cases p <;> cases asap <;> cases first <;>
    simp_all [handleEdgeLayerActivationActions, eligibleForEdgeActivation]

/-- C4: pass B failure condition.  For every operation configuration, pass B
fails (necessarily with the `Internal` status) exactly when the operation is
eligible and the number of maximal runs of `TriggerNewDataFromDataInput`
actions differs from one. -/
theorem edge_activation_failure_iff (cfg : OperationCfg) (pairs : List DdrPairRec)
    (l : List Action) :
    (handleEdgeLayerActivationActions cfg pairs l = .error .internalFailure
      ↔ (eligibleForEdgeActivation cfg = true
          ∧ (indexesOfType l .TriggerNewDataFromDataInput).length ≠ 1))
    ∧ (∀ st, handleEdgeLayerActivationActions cfg pairs l = .error st →
        st = .internalFailure) := by
  by_cases helig : eligibleForEdgeActivation cfg = true
  · rw [and_iff_left_of_imp ?side]
    case side =>
      intro hst st h2
      rw [handleEdge_eligible cfg pairs l helig] at h2
      rcases hix : indexesOfType l .TriggerNewDataFromDataInput with - | ⟨⟨gs, ge⟩, rest2⟩ <;>
          rw [hix] at h2
      · simp at h2
        simp [h2]
      · rcases rest2 with - | ⟨q, rest3⟩
        · simp at h2
        · simp at h2
          simp [h2]
    rw [handleEdge_eligible cfg pairs l helig]
    rcases hix : indexesOfType l .TriggerNewDataFromDataInput with - | ⟨⟨gs, ge⟩, rest2⟩
    · simp [helig]
    · rcases rest2 with - | ⟨q, rest3⟩
      · simp [helig]
      · simp [helig]
  · have h0 : eligibleForEdgeActivation cfg = false := by simpa using helig
    rw [handleEdge_not_eligible cfg pairs l h0] at *
    constructor
    · constructor
      · intro h2; simp at h2
      · intro ⟨h2, h3⟩; rw [h0] at h2; simp at h2
    · intro st hst; simp at hst

/-- Witness: an eligible operation whose list carries two disjoint runs of
new-input-data actions fails with the internal status. -/
theorem edge_activation_failure_iff_witness :
    handleEdgeLayerActivationActions
        { isPreliminaryContext := false, preliminaryRunAsap := false, isFirstOperation := true }
        [] [{ typ := .TriggerNewDataFromDataInput }, dlAction, { typ := .TriggerNewDataFromDataInput }]
      = .error .internalFailure :=
  (edge_activation_failure_iff
    { isPreliminaryContext := false, preliminaryRunAsap := false, isFirstOperation := true }
    [] [{ typ := .TriggerNewDataFromDataInput }, dlAction,
        { typ := .TriggerNewDataFromDataInput }]).1.mpr (by constructor <;> decide)

theorem intervalsFromB_cover : ∀ (ps : List (Nat × Nat)) n s, intervalsFromB n s ps = true →
    ∀ i, s ≤ i → i < n → ∃ p ∈ ps, p.1 ≤ i ∧ i ≤ p.2 := by
  intro ps
  induction ps with
  | nil =>
    intro n s h i h1 h2
    rw [intervalsFromB] at h
    simp at h
    omega
  | cons p ps ih =>
    intro n s h i h1 h2
    rw [intervalsFromB] at h
    simp only [Bool.and_eq_true, beq_iff_eq, decide_eq_true_eq] at h
    obtain ⟨⟨⟨hps, hsle⟩, hlt⟩, hrest⟩ := h
    by_cases hile : i ≤ p.2
    · exact ⟨p, by simp, by omega, hile⟩
    · obtain ⟨q, hq, hq1, hq2⟩ := ih n (p.2 + 1) hrest i (by omega) h2
      exact ⟨q, by simp [hq], hq1, hq2⟩

theorem intervalsFromB_bounds : ∀ (ps : List (Nat × Nat)) n s, intervalsFromB n s ps = true →
    ∀ p ∈ ps, s ≤ p.1 ∧ p.1 ≤ p.2 ∧ p.2 < n := by
  intro ps
  induction ps with
  | nil => intro n s h p hp; simp at hp
  | cons q ps ih =>
    intro n s h p hp
    rw [intervalsFromB] at h
    simp only [Bool.and_eq_true, beq_iff_eq, decide_eq_true_eq] at h
    obtain ⟨⟨⟨hps, hsle⟩, hlt⟩, hrest⟩ := h
    rcases List.mem_cons.mp hp with h2 | h2
    · subst h2; exact ⟨by omega, by omega, hlt⟩
    · obtain ⟨g1, g2, g3⟩ := ih n (q.2 + 1) hrest p h2
      exact ⟨by omega, g2, g3⟩

theorem boundaries_cover (l : List Action) (i : Nat) (hi : i < l.length) :
    ∃ p ∈ boundaries l, p.1 ≤ i ∧ i ≤ p.2 :=
  intervalsFromB_cover (boundaries l) l.length 0 (boundaries_intervalsFromB l) i (by omega) hi

theorem boundaries_bounds (l : List Action) (p : Nat × Nat) (hp : p ∈ boundaries l) :
    p.1 ≤ p.2 ∧ p.2 < l.length := by
  have := intervalsFromB_bounds (boundaries l) l.length 0 (boundaries_intervalsFromB l) p hp
  exact ⟨this.2.1, this.2.2⟩

theorem single_group_mem (l : List Action) (gs ge : Nat)
    (hg : indexesOfType l .TriggerNewDataFromDataInput = [(gs, ge)]) :
    (gs, ge) ∈ boundaries l ∧ typAt l gs = .TriggerNewDataFromDataInput := by
  have hmem : (gs, ge) ∈ indexesOfType l .TriggerNewDataFromDataInput := by rw [hg]; simp
  unfold indexesOfType at hmem
  have h2 := List.mem_filter.mp hmem
  refine ⟨h2.1, by simpa using h2.2⟩

/-- When there is exactly one run of new-input-data actions, an index carries
that type exactly when it lies inside the run interval. -/
theorem single_group_char (l : List Action) (gs ge : Nat)
    (hg : indexesOfType l .TriggerNewDataFromDataInput = [(gs, ge)]) :
    ∀ i, i < l.length →
      (typAt l i = .TriggerNewDataFromDataInput ↔ (gs ≤ i ∧ i ≤ ge)) := by
  intro i hi
  obtain ⟨hmemb, htgs⟩ := single_group_mem l gs ge hg
  constructor
  · intro ht
    obtain ⟨p, hp, hp1, hp2⟩ := boundaries_cover l i hi
    have huni := boundaries_uniform l p hp i hp1 hp2
    have hpt : typAt l p.1 = .TriggerNewDataFromDataInput := by rw [← huni]; exact ht
    have hpfilter : p ∈ indexesOfType l .TriggerNewDataFromDataInput := by
      unfold indexesOfType
      exact List.mem_filter.mpr ⟨hp, by simpa using hpt⟩
    rw [hg] at hpfilter
    simp only [List.mem_singleton] at hpfilter
    subst hpfilter
    exact ⟨hp1, hp2⟩
  · intro h2
    have := boundaries_uniform l (gs, ge) hmemb i h2.1 h2.2
    rw [this]
    exact htgs

theorem heGo_append (gs ge : Nat) (pairs : List DdrPairRec) :
    ∀ (xs ys : List Action) (i : Nat),
      heGo gs ge pairs (xs ++ ys) i
        = heGo gs ge pairs xs i ++ heGo gs ge pairs ys (i + xs.length) := by
  intro xs
  induction xs with
  | nil => intro ys i; simp [heGo]
  | cons a rest ih =>
    intro ys i
    simp only [List.cons_append, heGo, List.length_cons, List.append_eq]
    rw [ih ys (i + 1), List.append_assoc]
    have h2 : i + 1 + rest.length = i + (rest.length + 1) := by omega
    rw [h2]

theorem heGo_no_trigger (gs ge : Nat) (pairs : List DdrPairRec) :
    ∀ (seg : List Action) (i : Nat),
      (∀ a ∈ seg, a.typ ≠ .TriggerNewDataFromDataInput) → heGo gs ge pairs seg i = seg := by
  intro seg
  induction seg with
  | nil => intro i h; rfl
  | cons a rest ih =>
    intro i h
    have ha : a.typ ≠ .TriggerNewDataFromDataInput := h a (by simp)
    rw [heGo, if_neg ha, ih (i + 1) (fun x hx => h x (by simp [hx]))]
    rfl

theorem heGo_run_tail (gs ge : Nat) (pairs : List DdrPairRec) :
    ∀ (seg : List Action) (i : Nat), seg ≠ [] →
      (∀ a ∈ seg, a.typ = .TriggerNewDataFromDataInput) →
      gs < i → i + seg.length = ge + 1 →
      heGo gs ge pairs seg i = seg ++ [burstCreditsAction] := by
  intro seg
  induction seg with
  | nil => intro i h; simp at h
  | cons a rest ih =>
    intro i hne hall hgs hlen
    have ha : a.typ = .TriggerNewDataFromDataInput := hall a (by simp)
    cases rest with
    | nil =>
      have hge : ge = i := by simp at hlen; omega
      rw [heGo, if_pos ha, proccessTriggerNewDataInputAction,
        if_neg (show ¬ gs = i by omega), if_pos hge]
      simp [heGo]
    | cons b rest2 =>
      have hge : ¬ ge = i := by simp at hlen ⊢; omega
      rw [heGo, if_pos ha, proccessTriggerNewDataInputAction,
        if_neg (show ¬ gs = i by omega), if_neg hge]
      rw [ih (i + 1) (by simp) (fun x hx => hall x (by simp [hx])) (by omega)
        (by simp at hlen ⊢; omega)]
      simp

theorem heGo_run (gs ge : Nat) (pairs : List DdrPairRec) (seg : List Action)
    (hne : seg ≠ []) (hall : ∀ a ∈ seg, a.typ = .TriggerNewDataFromDataInput)
    (hlen : gs + seg.length = ge + 1) :
    heGo gs ge pairs seg gs
      = markerAction :: (addDdrBuffersInfo pairs ++ seg ++ [burstCreditsAction]) := by
  cases seg with
  | nil => simp at hne
  | cons a rest =>
    have ha : a.typ = .TriggerNewDataFromDataInput := hall a (by simp)
    cases rest with
    | nil =>
      have hge : ge = gs := by simp at hlen; omega
      rw [heGo, if_pos ha, proccessTriggerNewDataInputAction, if_pos rfl, if_pos hge]
      simp [heGo]
    | cons b rest2 =>
      have hge : ¬ ge = gs := by simp at hlen ⊢; omega
      rw [heGo, if_pos ha, proccessTriggerNewDataInputAction, if_pos rfl,
        if_neg hge]
      rw [heGo_run_tail gs ge pairs (b :: rest2) (gs + 1) (by simp)
        (fun x hx => hall x (by simp [hx])) (by omega) (by simp at hlen ⊢; omega)]
      simp

theorem mem_addDdrBuffersInfo (pairs : List DdrPairRec) (a : Action)
    (ha : a ∈ addDdrBuffersInfo pairs) :
    a.typ = .DdrPairInfo ∨ a.typ = .StartDdrBufferingTask := by
  unfold addDdrBuffersInfo at ha
  rcases List.mem_append.mp ha with h | h
  · obtain ⟨p, -, hp2⟩ := List.mem_map.mp h
    left
    rw [← hp2]
  · right
    by_cases hany : pairs.any (fun p => p.needManualCreditManagement)
    · rw [if_pos hany] at h
      simp at h
      rw [h]
    · rw [if_neg hany] at h
      simp at h

/-- C5: pass B placement postcondition.  On an eligible operation with the
single run of new-input-data actions at `[gs, ge]`, the output of pass B is
the input with the marker plus the DDR-pair block inserted immediately
before the run and one credit-task action appended immediately after it;
the output carries exactly one marker and exactly one credit-task action,
and the DDR block holds one pairing action per manual-credit pair.
The purity hypotheses (no markers and no credit-task actions in the input)
hold for every parsed operation: the HEF parser factory never constructs
those action types. -/
theorem edge_activation_placement (cfg : OperationCfg) (pairs : List DdrPairRec)
    (l : List Action) (gs ge : Nat) (out : List Action)
    (helig : eligibleForEdgeActivation cfg = true)
    (hg : indexesOfType l .TriggerNewDataFromDataInput = [(gs, ge)])
    (hok : handleEdgeLayerActivationActions cfg pairs l = .ok out)
    (hm : ∀ a ∈ l, a.typ ≠ .EdgeLayerActivationActionsPositionMarker)
    (hc : ∀ a ∈ l, a.typ ≠ .StartBurstCreditsTask) :
    out = l.take gs ++ [markerAction] ++ addDdrBuffersInfo pairs
        ++ (l.drop gs).take (ge + 1 - gs) ++ [burstCreditsAction] ++ l.drop (ge + 1)
    ∧ out.countP (fun a => a.typ == .EdgeLayerActivationActionsPositionMarker) = 1
    ∧ out.countP (fun a => a.typ == .StartBurstCreditsTask) = 1
    ∧ (addDdrBuffersInfo pairs).countP (fun a => a.typ == .DdrPairInfo)
        = (pairs.filter (fun p => p.needManualCreditManagement)).length := by
  have hout : out = heGo gs ge pairs l 0 := by
    rw [handleEdge_eligible cfg pairs l helig, hg] at hok
    simpa using hok.symm
  obtain ⟨hmemb, htgs⟩ := single_group_mem l gs ge hg
  obtain ⟨hgsge, hgelt⟩ := boundaries_bounds l (gs, ge) hmemb
  simp only at hgsge hgelt
  have hseg_len : ((l.drop gs).take (ge + 1 - gs)).length = ge + 1 - gs := by
    rw [List.length_take, List.length_drop]
    omega
  have hpre_len : (l.take gs).length = gs := by
    rw [List.length_take]
    omega
  have hdecomp : l = l.take gs ++ ((l.drop gs).take (ge + 1 - gs) ++ l.drop (ge + 1)) := by
    have h2 : ((l.drop gs).take (ge + 1 - gs)) ++ ((l.drop gs).drop (ge + 1 - gs))
        = l.drop gs := List.take_append_drop _ _
    have h3 : (l.drop gs).drop (ge + 1 - gs) = l.drop (ge + 1) := by
      rw [List.drop_drop]
      congr 1
      omega
    rw [← h3, h2, List.take_append_drop]
  have hall_seg : ∀ a ∈ (l.drop gs).take (ge + 1 - gs),
      a.typ = .TriggerNewDataFromDataInput := by
    intro a ha
    obtain ⟨j, hj, hja⟩ := List.mem_iff_getElem.mp ha
    have hj2 : j < ge + 1 - gs := by rwa [hseg_len] at hj
    have e0 : ((l.drop gs).take (ge + 1 - gs)).getD j default = a := by
      rw [List.getD_eq_getElem _ default hj, hja]
    have e1 : ((l.drop gs).take (ge + 1 - gs)).getD j default = l.getD (gs + j) default := by
      rw [getD_take _ _ _ hj2, getD_drop]
    have htyp : typAt l (gs + j) = .TriggerNewDataFromDataInput :=
      (single_group_char l gs ge hg (gs + j) (by omega)).mpr (by omega)
    have : a.typ = (l.getD (gs + j) default).typ := by rw [← e0, e1]
    rw [this]
    exact htyp
  have hpre : ∀ a ∈ l.take gs, a.typ ≠ .TriggerNewDataFromDataInput := by
    intro a ha htrig
    obtain ⟨j, hj, hja⟩ := List.mem_iff_getElem.mp ha
    have hj2 : j < gs := by rwa [hpre_len] at hj
    have hjl : j < l.length := by omega
    have e0 : (l.take gs).getD j default = a := by
      rw [List.getD_eq_getElem _ default hj, hja]
    have e1 : (l.take gs).getD j default = l.getD j default := getD_take l gs j hj2
    have htyp : typAt l j = .TriggerNewDataFromDataInput := by
      show (l.getD j default).typ = _
      rw [← e1, e0]
      exact htrig
    have := (single_group_char l gs ge hg j hjl).mp htyp
    omega
  have hsuf : ∀ a ∈ l.drop (ge + 1), a.typ ≠ .TriggerNewDataFromDataInput := by
    intro a ha htrig
    obtain ⟨j, hj, hja⟩ := List.mem_iff_getElem.mp ha
    have hjlen : j < l.length - (ge + 1) := by rwa [List.length_drop] at hj
    have e0 : (l.drop (ge + 1)).getD j default = a := by
      rw [List.getD_eq_getElem _ default hj, hja]
    have e1 : (l.drop (ge + 1)).getD j default = l.getD (ge + 1 + j) default := getD_drop l _ j
    have htyp : typAt l (ge + 1 + j) = .TriggerNewDataFromDataInput := by
      show (l.getD (ge + 1 + j) default).typ = _
      rw [← e1, e0]
      exact htrig
    have := (single_group_char l gs ge hg (ge + 1 + j) (by omega)).mp htyp
    omega
  have hchain : heGo gs ge pairs l 0
      = l.take gs ++ (markerAction :: (addDdrBuffersInfo pairs
          ++ (l.drop gs).take (ge + 1 - gs) ++ [burstCreditsAction])
        ++ l.drop (ge + 1)) := by
    conv_lhs => rw [hdecomp]
    rw [heGo_append, heGo_append]
    rw [heGo_no_trigger gs ge pairs (l.take gs) 0 hpre]
    rw [hpre_len, hseg_len]
    have hsegrun : heGo gs ge pairs ((l.drop gs).take (ge + 1 - gs)) gs
        = markerAction :: (addDdrBuffersInfo pairs
            ++ (l.drop gs).take (ge + 1 - gs) ++ [burstCreditsAction]) := by
      have hknz : (l.drop gs).take (ge + 1 - gs) ≠ [] := by
        intro hx
        have := hseg_len
        rw [hx] at this
        simp at this
        omega
      exact heGo_run gs ge pairs _ hknz hall_seg (by rw [hseg_len]; omega)
    have hzero : (0 : Nat) + gs = gs := by omega
    rw [hzero, hsegrun]
    rw [heGo_no_trigger gs ge pairs (l.drop (ge + 1)) _ hsuf]
  have hout2 : out = l.take gs ++ [markerAction] ++ addDdrBuffersInfo pairs
      ++ (l.drop gs).take (ge + 1 - gs) ++ [burstCreditsAction] ++ l.drop (ge + 1) := by
    rw [hout, hchain]
    simp [List.append_assoc]
  have hsub_seg : ∀ a ∈ (l.drop gs).take (ge + 1 - gs), a ∈ l := fun a ha =>
    List.mem_of_mem_drop (List.mem_of_mem_take ha)
  have hcount : ∀ (t : ActionType), t ≠ .DdrPairInfo → t ≠ .StartDdrBufferingTask →
      (addDdrBuffersInfo pairs).countP (fun a => a.typ == t) = 0 := by
    intro t h1 h2
    rw [List.countP_eq_zero]
    intro a ha
    rcases mem_addDdrBuffersInfo pairs a ha with h | h
    · rw [h]
      simp only [beq_iff_eq]
      exact fun hx => h1 hx.symm
    · rw [h]
      simp only [beq_iff_eq]
      exact fun hx => h2 hx.symm
  refine ⟨hout2, ?_, ?_, ?_⟩
  · rw [hout2]
    simp only [List.countP_append]
    have c1 : (l.take gs).countP
        (fun a => a.typ == ActionType.EdgeLayerActivationActionsPositionMarker) = 0 := by
      rw [List.countP_eq_zero]
      intro a ha
      have := hm a (List.mem_of_mem_take ha)
      simpa using this
    have c2 : (addDdrBuffersInfo pairs).countP
        (fun a => a.typ == ActionType.EdgeLayerActivationActionsPositionMarker) = 0 :=
      hcount _ (by simp) (by simp)
    have c3 : ((l.drop gs).take (ge + 1 - gs)).countP
        (fun a => a.typ == ActionType.EdgeLayerActivationActionsPositionMarker) = 0 := by
      rw [List.countP_eq_zero]
      intro a ha
      have := hm a (hsub_seg a ha)
      simpa using this
    have c4 : (l.drop (ge + 1)).countP
        (fun a => a.typ == ActionType.EdgeLayerActivationActionsPositionMarker) = 0 := by
      rw [List.countP_eq_zero]
      intro a ha
      have := hm a (List.mem_of_mem_drop ha)
      simpa using this
    rw [c1, c2, c3, c4]
    simp [markerAction, burstCreditsAction, List.countP_cons]
  · rw [hout2]
    simp only [List.countP_append]
    have c1 : (l.take gs).countP (fun a => a.typ == ActionType.StartBurstCreditsTask) = 0 := by
      rw [List.countP_eq_zero]
      intro a ha
      have := hc a (List.mem_of_mem_take ha)
      simpa using this
    have c2 : (addDdrBuffersInfo pairs).countP
        (fun a => a.typ == ActionType.StartBurstCreditsTask) = 0 :=
      hcount _ (by simp) (by simp)
    have c3 : ((l.drop gs).take (ge + 1 - gs)).countP
        (fun a => a.typ == ActionType.StartBurstCreditsTask) = 0 := by
      rw [List.countP_eq_zero]
      intro a ha
      have := hc a (hsub_seg a ha)
      simpa using this
    have c4 : (l.drop (ge + 1)).countP
        (fun a => a.typ == ActionType.StartBurstCreditsTask) = 0 := by
      rw [List.countP_eq_zero]
      intro a ha
      have := hc a (List.mem_of_mem_drop ha)
      simpa using this
    rw [c1, c2, c3, c4]
    simp [markerAction, burstCreditsAction, List.countP_cons]
  · unfold addDdrBuffersInfo
    rw [List.countP_append]
    have c1 : ((pairs.filter (fun p => p.needManualCreditManagement)).map
        (fun p => ({ typ := .DdrPairInfo, param := p.payload } : Action))).countP
          (fun a => a.typ == ActionType.DdrPairInfo)
        = (pairs.filter (fun p => p.needManualCreditManagement)).length := by
      rw [show (pairs.filter (fun p => p.needManualCreditManagement)).length
          = ((pairs.filter (fun p => p.needManualCreditManagement)).map
              (fun p => ({ typ := .DdrPairInfo, param := p.payload } : Action))).length from
          (List.length_map _ _).symm]
      rw [List.countP_eq_length]
      intro a ha
      obtain ⟨p, -, hp2⟩ := List.mem_map.mp ha
      rw [← hp2]
      simp
    have c2 : (if pairs.any (fun p => p.needManualCreditManagement)
        then [({ typ := .StartDdrBufferingTask } : Action)] else []).countP
          (fun a => a.typ == ActionType.DdrPairInfo) = 0 := by
      by_cases hany : pairs.any (fun p => p.needManualCreditManagement)
      · rw [if_pos hany]
        simp
      · rw [if_neg hany]
        simp
    rw [c1, c2]
    omega

/-- Witness: placement on a one-trigger operation with one manual DDR pair. -/
theorem edge_activation_placement_witness :
    ([markerAction, ({ typ := .DdrPairInfo, param := 7 } : Action),
        ({ typ := .StartDdrBufferingTask } : Action),
        ({ typ := .TriggerNewDataFromDataInput } : Action), burstCreditsAction] : List Action)
      = ([({ typ := .TriggerNewDataFromDataInput } : Action)] : List Action).take 0
          ++ [markerAction]
          ++ addDdrBuffersInfo [{ needManualCreditManagement := true, payload := 7 }]
          ++ (([({ typ := .TriggerNewDataFromDataInput } : Action)] : List Action).drop 0).take 1
          ++ [burstCreditsAction]
          ++ ([({ typ := .TriggerNewDataFromDataInput } : Action)] : List Action).drop 1 :=
  (edge_activation_placement
    { isPreliminaryContext := false, preliminaryRunAsap := false, isFirstOperation := true }
    [{ needManualCreditManagement := true, payload := 7 }]
    [{ typ := .TriggerNewDataFromDataInput }] 0 0
    [markerAction, { typ := .DdrPairInfo, param := 7 },
      { typ := .StartDdrBufferingTask },
      { typ := .TriggerNewDataFromDataInput }, burstCreditsAction]
    (by decide) (by decide) (by decide) (by decide) (by decide)).1

/-- The mutable loop state of `add_fetch_config_actions`:
`pending_config_stream_indexes` (a `std::set`, kept as a sorted list) and
`total_ccw_bursts` (a vector with one accumulator per config channel). -/
structure FetchState where
  pending : List Nat
  totals : List Nat
deriving DecidableEq, Repr

/-- Ordered-set insertion (the `std::set<uint8_t>::insert` of the source). -/
def insertSorted (x : Nat) : List Nat → List Nat
  | [] => [x]
  | y :: rest =>
      if x < y then x :: y :: rest
      else if x = y then y :: rest
      else y :: insertSorted x rest

/-- The fetch action created per pending config channel: `AddCcwBurstAction`
when the hardware supports burst pre-fetch, otherwise
`CreateConfigDescAndFetchAction`. -/
def mkFetchAction (pf : Bool) (totals : List Nat) (idx : Nat) : Action :=
  if pf then { typ := .AddCcwBurst, cfgChannelIndex := idx, ccwBursts := totals.getD idx 0 }
  else { typ := .CreateDescForCcw, cfgChannelIndex := idx }

/-- The per-index loop of `push_fetch_config_actions`: check the channel
index, then emit the fetch action. -/
def pushFetchGo (cfgCount : Nat) (pf : Bool) (totals : List Nat) :
    List Nat → Except HailoStatus (List Action)
  | [] => .ok []
  | idx :: rest =>
    if cfgCount ≤ idx then .error .internalFailure
    else
      match pushFetchGo cfgCount pf totals rest with
      | .error e => .error e
      | .ok tail => .ok (mkFetchAction pf totals idx :: tail)

/-- The `push_fetch_config_actions` helper of `hef.cpp`. -/
def pushFetchConfigActions (cfgCount : Nat) (pf : Bool) (pending totals : List Nat) :
    Except HailoStatus (List Action) :=
  if totals.length ≠ cfgCount then .error .internalFailure
  else pushFetchGo cfgCount pf totals pending

/-- The `proccess_write_ccw_action` helper of `hef.cpp` (source spelling
kept): check the index fits a `uint8_t`, record it as pending, bump its
burst accumulator (one burst per write, checked against `uint16_t`), and at
the end of a consecutive write group emit the fetch actions and clear the
accumulators. -/
def proccessWriteCcwAction (cfgCount : Nat) (pf : Bool) (isEnd : Bool) (a : Action)
    (st : FetchState) : Except HailoStatus (FetchState × List Action) :=
  if 255 < a.cfgChannelIndex then .error .invalidHef
  else
    if 65535 < st.totals.getD a.cfgChannelIndex 0 + 1 then .error .internalFailure
    else
      let pending2 := insertSorted a.cfgChannelIndex st.pending
      let totals2 := st.totals.set a.cfgChannelIndex (st.totals.getD a.cfgChannelIndex 0 + 1)
      if isEnd then
        match pushFetchConfigActions cfgCount pf pending2 totals2 with
        | .error e => .error e
        | .ok fetch => .ok ({ pending := [], totals := totals2.map (fun _ => 0) }, a :: fetch)
      else .ok ({ pending := pending2, totals := totals2 }, [a])

/-- The rewrite loop of `add_fetch_config_actions`. -/
def afcaGo (cfgCount : Nat) (pf : Bool) (ends : List Nat) :
    List Action → Nat → FetchState → Except HailoStatus (List Action × FetchState)
  | [], _, st => .ok ([], st)
  | a :: rest, i, st =>
    if a.typ = .WriteDataCcw then
      match proccessWriteCcwAction cfgCount pf (ends.contains i) a st with
      | .error e => .error e
      | .ok (st2, out) =>
        match afcaGo cfgCount pf ends rest (i + 1) st2 with
        | .error e => .error e
        | .ok (tail, st3) => .ok (out ++ tail, st3)
    else
      match afcaGo cfgCount pf ends rest (i + 1) st with
      | .error e => .error e
      | .ok (tail, st3) => .ok (a :: tail, st3)

/-- Rewrite pass A, `add_fetch_config_actions` of `hef.cpp`.  `cfgCount` is
`config_resources.size()` and `pf` is `support_pre_fetch`. -/
def addFetchConfigActions (cfgCount : Nat) (pf : Bool) (l : List Action) :
    Except HailoStatus (List Action) :=
  (afcaGo cfgCount pf (endIndexesOfType l .WriteDataCcw) l 0
    { pending := [], totals := List.replicate cfgCount 0 }).map (fun r => r.1)

/-- The config-channel indexes touched by a run, in ascending order without
duplicates (the contents of `pending_config_stream_indexes` after the run). -/
def ccwIndexesOf (run : List Action) : List Nat :=
  run.foldl (fun p a => insertSorted a.cfgChannelIndex p) []

/-- Number of configuration-word writes of a run that target `idx` (the final
burst accumulator of that index, one burst per write). -/
def countIdx (run : List Action) (idx : Nat) : Nat :=
  (run.filter (fun a => a.cfgChannelIndex == idx)).length

/-- The accumulator vector after processing `run` from a clean state. -/
def totalsOf (cfgCount : Nat) (run : List Action) : List Nat :=
  (List.range cfgCount).map (fun idx => countIdx run idx)

/-- The fetch block emitted after a run of configuration-word writes: one
fetch action per touched index, ascending, carrying that index's write
count as its burst count. -/
def fetchBlock (pf : Bool) (run : List Action) : List Action :=
  (ccwIndexesOf run).map (fun idx =>
    if pf then { typ := .AddCcwBurst, cfgChannelIndex := idx, ccwBursts := countIdx run idx }
    else { typ := .CreateDescForCcw, cfgChannelIndex := idx })

/-- Reference description of pass A: each maximal run of `WriteDataCcw`
actions is followed by its fetch block; all other runs are untouched. -/
def fetchSpec (pf : Bool) (l : List Action) : List Action :=
  (runsOf l).flatMap (fun run =>
    if typAt run 0 = .WriteDataCcw then run ++ fetchBlock pf run else run)

/-- The end positions of the runs of type `t`, positionally. -/
def runEndsFor (l : List Action) (t : ActionType) : Nat → List (List Action) → List Nat
  | _, [] => []
  | s, r :: rs =>
      (if typAt l s == t then [s + r.length - 1] else [])
        ++ runEndsFor l t (s + r.length) rs

lemma mem_insertSorted {x y : Nat} : ∀ {l : List Nat}, x ∈ insertSorted y l → x = y ∨ x ∈ l := by
  intro l
  induction l with
  | nil =>
      intro h
      rw [insertSorted] at h
      exact .inl (by simpa using h)
  | cons z rest ih =>
      intro h
      by_cases h1 : y < z
      · rw [insertSorted, if_pos h1] at h
        rcases List.mem_cons.mp h with h | h
        · exact .inl h
        · exact .inr h
      · by_cases h2 : y = z
        · rw [insertSorted, if_neg h1, if_pos h2] at h
          exact .inr h
        · rw [insertSorted, if_neg h1, if_neg h2] at h
          rcases List.mem_cons.mp h with h | h
          · exact .inr (by simp [h])
          · rcases ih h with h | h
            · exact .inl h
            · exact .inr (by simp [h])

lemma ccwIndexesOf_snoc (done : List Action) (a : Action) :
    ccwIndexesOf (done ++ [a]) = insertSorted a.cfgChannelIndex (ccwIndexesOf done) := by
  simp [ccwIndexesOf, List.foldl_append]

lemma mem_ccwIndexesOf_gen : ∀ (run : List Action) (p : List Nat) (j : Nat),
    j ∈ run.foldl (fun p a => insertSorted a.cfgChannelIndex p) p →
    j ∈ p ∨ ∃ a ∈ run, a.cfgChannelIndex = j
  | [], p, j, h => .inl h
  | a :: rest, p, j, h => by
      rcases mem_ccwIndexesOf_gen rest _ j h with h | ⟨b, hb, hbj⟩
      · rcases mem_insertSorted h with h | h
        · exact .inr ⟨a, by simp, h.symm⟩
        · exact .inl h
      · exact .inr ⟨b, by simp [hb], hbj⟩

lemma mem_ccwIndexesOf {run : List Action} {j : Nat} (h : j ∈ ccwIndexesOf run) :
    ∃ a ∈ run, a.cfgChannelIndex = j := by
  rcases mem_ccwIndexesOf_gen run [] j h with h | h
  · simp at h
  · exact h

lemma getD_map_range {n idx : Nat} (f : Nat → Nat) (h : idx < n) :
    ((List.range n).map f).getD idx 0 = f idx := by
  have hl : idx < ((List.range n).map f).length := by simpa using h
  rw [List.getD_eq_getElem _ _ hl, List.getElem_map, List.getElem_range]

lemma totalsOf_length (c : Nat) (run : List Action) : (totalsOf c run).length = c := by
  simp [totalsOf]

lemma totalsOf_getD {c idx : Nat} (run : List Action) (h : idx < c) :
    (totalsOf c run).getD idx 0 = countIdx run idx :=
  getD_map_range _ h

lemma totalsOf_nil (c : Nat) : totalsOf c [] = List.replicate c 0 := by
  simp [totalsOf, countIdx]

lemma countIdx_snoc (done : List Action) (a : Action) (m : Nat) :
    countIdx (done ++ [a]) m = countIdx done m + (if a.cfgChannelIndex = m then 1 else 0) := by
  by_cases h : a.cfgChannelIndex = m
  · simp [countIdx, List.filter_append, h]
  · simp [countIdx, List.filter_append, h]

lemma countIdx_le_length (run : List Action) (idx : Nat) : countIdx run idx ≤ run.length :=
  List.Sublist.length_le (List.filter_sublist run)

lemma totalsOf_set {c : Nat} (done : List Action) (a : Action)
    (_h : a.cfgChannelIndex < c) :
    (totalsOf c done).set a.cfgChannelIndex (countIdx done a.cfgChannelIndex + 1)
      = totalsOf c (done ++ [a]) := by
  apply List.ext_getElem
  · simp [totalsOf]
  · intro n h1 h2
    have hn : n < c := by simpa [totalsOf] using h2
    have e1 : (totalsOf c (done ++ [a]))[n] = countIdx (done ++ [a]) n := by
      simp only [totalsOf, List.getElem_map, List.getElem_range]
    have e2 : ∀ hh : n < (totalsOf c done).length, (totalsOf c done)[n] = countIdx done n := by
      intro hh
      simp only [totalsOf, List.getElem_map, List.getElem_range]
    rw [List.getElem_set, e1, countIdx_snoc]
    by_cases he : a.cfgChannelIndex = n
    · subst he
      rw [if_pos rfl, if_pos rfl]
    · rw [if_neg he, if_neg he, e2 (by rw [totalsOf_length]; exact hn)]
      omega

lemma totalsOf_map_zero (c : Nat) (run : List Action) :
    (totalsOf c run).map (fun _ => 0) = List.replicate c 0 := by
  rw [List.map_const', totalsOf_length]

lemma pushFetchGo_ok (cfgCount : Nat) (pf : Bool) (totals : List Nat) :
    ∀ (pending : List Nat), (∀ j ∈ pending, j < cfgCount) →
    pushFetchGo cfgCount pf totals pending = .ok (pending.map (mkFetchAction pf totals))
  | [], _ => rfl
  | idx :: rest, h => by
      have h1 : ¬ cfgCount ≤ idx := by
        have := h idx (by simp)
        omega
      rw [pushFetchGo, if_neg h1, pushFetchGo_ok cfgCount pf totals rest
        (fun j hj => h j (by simp [hj]))]
      rfl

lemma totalLen_cons (r : List Action) (rs : List (List Action)) :
    totalLen (r :: rs) = r.length + totalLen rs := by
  simp [totalLen]

lemma runEndsFor_eq (l : List Action) (t : ActionType) :
    ∀ (rs : List (List Action)) (s : Nat),
    ((runIntervals s rs).filter (fun p => typAt l p.1 == t)).map (fun p => p.2)
      = runEndsFor l t s rs
  | [], s => rfl
  | r :: rs, s => by
      rw [runIntervals, runEndsFor, List.filter_cons]
      by_cases h : typAt l s == t
      · rw [if_pos h, if_pos h, List.map_cons, runEndsFor_eq l t rs (s + r.length)]
        rfl
      · rw [if_neg h, if_neg h, runEndsFor_eq l t rs (s + r.length)]
        rfl

lemma endIndexesOfType_eq (l : List Action) (t : ActionType) :
    endIndexesOfType l t = runEndsFor l t 0 (runsOf l) := by
  rw [endIndexesOfType, indexesOfType, boundaries_eq_runIntervals, runEndsFor_eq]

lemma runEndsFor_lb (l : List Action) (t : ActionType) :
    ∀ (rs : List (List Action)) (s : Nat), (∀ r ∈ rs, r ≠ []) →
    ∀ j ∈ runEndsFor l t s rs, s ≤ j
  | [], s, _, j, hj => by simp [runEndsFor] at hj
  | r :: rs, s, hne, j, hj => by
      have hrne : r ≠ [] := hne r (by simp)
      have hrlen : 1 ≤ r.length := List.length_pos.mpr hrne
      rw [runEndsFor, List.mem_append] at hj
      rcases hj with hj | hj
      · by_cases h : typAt l s == t
        · rw [if_pos h] at hj
          simp at hj
          omega
        · rw [if_neg h] at hj
          simp at hj
      · have := runEndsFor_lb l t rs (s + r.length) (fun x hx => hne x (by simp [hx])) j hj
        omega

lemma runEndsFor_ub (l : List Action) (t : ActionType) :
    ∀ (rs : List (List Action)) (s : Nat), (∀ r ∈ rs, r ≠ []) →
    ∀ j ∈ runEndsFor l t s rs, j < s + totalLen rs
  | [], s, _, j, hj => by simp [runEndsFor] at hj
  | r :: rs, s, hne, j, hj => by
      have hrne : r ≠ [] := hne r (by simp)
      have hrlen : 1 ≤ r.length := List.length_pos.mpr hrne
      rw [runEndsFor, List.mem_append] at hj
      rw [totalLen_cons]
      rcases hj with hj | hj
      · by_cases h : typAt l s == t
        · rw [if_pos h] at hj
          simp at hj
          omega
        · rw [if_neg h] at hj
          simp at hj
      · have := runEndsFor_ub l t rs (s + r.length) (fun x hx => hne x (by simp [hx])) j hj
        omega

lemma runEndsFor_append (l : List Action) (t : ActionType) :
    ∀ (rs1 rs2 : List (List Action)) (s : Nat),
    runEndsFor l t s (rs1 ++ rs2)
      = runEndsFor l t s rs1 ++ runEndsFor l t (s + totalLen rs1) rs2
  | [], rs2, s => by simp [runEndsFor, totalLen]
  | r :: rs1, rs2, s => by
      rw [List.cons_append, runEndsFor, runEndsFor,
        runEndsFor_append l t rs1 rs2 (s + r.length), totalLen_cons, List.append_assoc]
      have : s + r.length + totalLen rs1 = s + (r.length + totalLen rs1) := by omega
      rw [this]

lemma afcaGo_append (cfgCount : Nat) (pf : Bool) (ends : List Nat) :
    ∀ (xs : List Action) (ys : List Action) (i : Nat) (st : FetchState)
      (o1 : List Action) (st1 : FetchState) (o2 : List Action) (st2 : FetchState),
      afcaGo cfgCount pf ends xs i st = .ok (o1, st1) →
      afcaGo cfgCount pf ends ys (i + xs.length) st1 = .ok (o2, st2) →
      afcaGo cfgCount pf ends (xs ++ ys) i st = .ok (o1 ++ o2, st2) := by
  intro xs
  induction xs with
  | nil =>
      intro ys i st o1 st1 o2 st2 h1 h2
      rw [afcaGo] at h1
      injection h1 with h1
      injection h1 with ho hst
      subst ho
      subst hst
      simpa using h2
  | cons a rest ih =>
      intro ys i st o1 st1 o2 st2 h1 h2
      rw [List.cons_append]
      by_cases ht : a.typ = .WriteDataCcw
      · rw [afcaGo, if_pos ht] at h1 ⊢
        rcases hpw : proccessWriteCcwAction cfgCount pf (ends.contains i) a st with e | p
        · rw [hpw] at h1
          exact absurd h1 (by simp)
        · obtain ⟨stm, out⟩ := p
          rw [hpw] at h1
          simp only at h1 ⊢
          rcases hrec : afcaGo cfgCount pf ends rest (i + 1) stm with e2 | q
          · rw [hrec] at h1
            exact absurd h1 (by simp)
          · obtain ⟨tail, st3⟩ := q
            rw [hrec] at h1
            simp only at h1
            have hq1 : out ++ tail = o1 := by
              injection h1 with hh
              injection hh with hh1 hh2
            have hq2 : st3 = st1 := by
              injection h1 with hh
              injection hh with hh1 hh2
            have h2b : afcaGo cfgCount pf ends ys (i + 1 + rest.length) st3 = .ok (o2, st2) := by
              have harith : i + 1 + rest.length = i + (a :: rest).length := by simp; omega
              rw [harith, hq2]
              exact h2
            have := ih ys (i + 1) stm tail st3 o2 st2 hrec h2b
            rw [this]
            simp only
            rw [← hq1, List.append_assoc]
      · rw [afcaGo, if_neg ht] at h1 ⊢
        rcases hrec : afcaGo cfgCount pf ends rest (i + 1) st with e2 | q
        · rw [hrec] at h1
          exact absurd h1 (by simp)
        · obtain ⟨tail, st3⟩ := q
          rw [hrec] at h1
          simp only at h1
          have hq1 : a :: tail = o1 := by
            injection h1 with hh
            injection hh with hh1 hh2
          have hq2 : st3 = st1 := by
            injection h1 with hh
            injection hh with hh1 hh2
          have h2b : afcaGo cfgCount pf ends ys (i + 1 + rest.length) st3 = .ok (o2, st2) := by
            have harith : i + 1 + rest.length = i + (a :: rest).length := by simp; omega
            rw [harith, hq2]
            exact h2
          have := ih ys (i + 1) st tail st3 o2 st2 hrec h2b
          rw [this]
          simp only
          rw [← hq1, List.cons_append]

lemma afcaGo_no_ccw (cfgCount : Nat) (pf : Bool) (ends : List Nat) :
    ∀ (seg : List Action) (i : Nat) (st : FetchState),
      (∀ a ∈ seg, a.typ ≠ .WriteDataCcw) →
      afcaGo cfgCount pf ends seg i st = .ok (seg, st)
  | [], _, _, _ => rfl
  | a :: rest, i, st, h => by
      have ha : a.typ ≠ .WriteDataCcw := h a (by simp)
      rw [afcaGo, if_neg ha,
        afcaGo_no_ccw cfgCount pf ends rest (i + 1) st (fun x hx => h x (by simp [hx]))]

lemma afcaGo_ccw_run (cfgCount : Nat) (pf : Bool) (ends : List Nat) (s : Nat) :
    ∀ (todo done : List Action),
      (∀ a ∈ todo, a.typ = .WriteDataCcw) →
      (∀ a ∈ todo, a.cfgChannelIndex < cfgCount) →
      (∀ a ∈ done, a.cfgChannelIndex < cfgCount) →
      todo ≠ [] →
      done.length + todo.length ≤ 65535 →
      cfgCount ≤ 255 →
      (∀ m, m < todo.length - 1 → ends.contains (s + done.length + m) = false) →
      ends.contains (s + done.length + (todo.length - 1)) = true →
      afcaGo cfgCount pf ends todo (s + done.length)
          { pending := ccwIndexesOf done, totals := totalsOf cfgCount done }
        = .ok (todo ++ (ccwIndexesOf (done ++ todo)).map
            (mkFetchAction pf (totalsOf cfgCount (done ++ todo))),
          { pending := [], totals := List.replicate cfgCount 0 }) := by
  intro todo
  induction todo with
  | nil => intro done _ _ _ hne; simp at hne
  | cons a rest ih =>
    intro done htodoT htodoI hdoneI hne hlen hcfg hnoend hend
    have hccw : a.typ = .WriteDataCcw := htodoT a (by simp)
    have hidx : a.cfgChannelIndex < cfgCount := htodoI a (by simp)
    have h255 : ¬ 255 < a.cfgChannelIndex := by omega
    have hgetD : (totalsOf cfgCount done).getD a.cfgChannelIndex 0
        = countIdx done a.cfgChannelIndex := totalsOf_getD done hidx
    have h16 : ¬ 65535 < (totalsOf cfgCount done).getD a.cfgChannelIndex 0 + 1 := by
      rw [hgetD]
      have := countIdx_le_length done a.cfgChannelIndex
      have hrl : 1 ≤ (a :: rest).length := by simp
      omega
    have hpend : insertSorted a.cfgChannelIndex (ccwIndexesOf done)
        = ccwIndexesOf (done ++ [a]) := (ccwIndexesOf_snoc done a).symm
    have htot : (totalsOf cfgCount done).set a.cfgChannelIndex
          ((totalsOf cfgCount done).getD a.cfgChannelIndex 0 + 1)
        = totalsOf cfgCount (done ++ [a]) := by
      rw [hgetD]
      exact totalsOf_set done a hidx
    cases rest with
    | nil =>
      have hE : ends.contains (s + done.length) = true := by
        have := hend
        simpa using this
      have hdone1 : ∀ b ∈ done ++ [a], b.cfgChannelIndex < cfgCount := by
        intro b hb
        rcases List.mem_append.mp hb with hb | hb
        · exact hdoneI b hb
        · simp at hb
          rw [hb]
          exact hidx
      have hpendlt : ∀ j ∈ ccwIndexesOf (done ++ [a]), j < cfgCount := by
        intro j hj
        obtain ⟨b, hb, hbj⟩ := mem_ccwIndexesOf hj
        rw [← hbj]
        exact hdone1 b hb
      have hlc : ¬ ((totalsOf cfgCount (done ++ [a])).length ≠ cfgCount) := by
        rw [totalsOf_length]
        exact fun h => h rfl
      have hpush : pushFetchConfigActions cfgCount pf (ccwIndexesOf (done ++ [a]))
            (totalsOf cfgCount (done ++ [a]))
          = .ok ((ccwIndexesOf (done ++ [a])).map
              (mkFetchAction pf (totalsOf cfgCount (done ++ [a])))) := by
        rw [pushFetchConfigActions, if_neg hlc,
          pushFetchGo_ok cfgCount pf _ _ hpendlt]
      have hpw : proccessWriteCcwAction cfgCount pf (ends.contains (s + done.length)) a
            { pending := ccwIndexesOf done, totals := totalsOf cfgCount done }
          = .ok ({ pending := [], totals := List.replicate cfgCount 0 },
              a :: (ccwIndexesOf (done ++ [a])).map
                (mkFetchAction pf (totalsOf cfgCount (done ++ [a])))) := by
        rw [hE, proccessWriteCcwAction, if_neg h255]
        simp only
        rw [if_neg h16, if_pos trivial, hpend, htot, hpush]
        simp only
        rw [totalsOf_map_zero]
      rw [afcaGo, if_pos hccw, hpw]
      simp only
      rw [afcaGo]
      simp only
      rw [List.append_nil]
      rfl
    | cons b rest2 =>
      have hE : ends.contains (s + done.length) = false := by
        have := hnoend 0 (by simp)
        simpa using this
      have hpw : proccessWriteCcwAction cfgCount pf (ends.contains (s + done.length)) a
            { pending := ccwIndexesOf done, totals := totalsOf cfgCount done }
          = .ok ({ pending := ccwIndexesOf (done ++ [a]),
                   totals := totalsOf cfgCount (done ++ [a]) }, [a]) := by
        rw [hE, proccessWriteCcwAction, if_neg h255]
        simp only
        rw [if_neg h16, if_neg (show ¬ (false = true) by simp), hpend, htot]
      have hrec : afcaGo cfgCount pf ends (b :: rest2) (s + done.length + 1)
            { pending := ccwIndexesOf (done ++ [a]),
              totals := totalsOf cfgCount (done ++ [a]) }
          = .ok ((b :: rest2) ++ (ccwIndexesOf ((done ++ [a]) ++ (b :: rest2))).map
              (mkFetchAction pf (totalsOf cfgCount ((done ++ [a]) ++ (b :: rest2)))),
            { pending := [], totals := List.replicate cfgCount 0 }) := by
        have hl1 : (done ++ [a]).length = done.length + 1 := by simp
        have := ih (done ++ [a])
          (fun x hx => htodoT x (by simp [hx]))
          (fun x hx => htodoI x (by simp [hx]))
          (by
            intro x hx
            rcases List.mem_append.mp hx with hx | hx
            · exact hdoneI x hx
            · simp at hx
              rw [hx]
              exact hidx)
          (by simp)
          (by simp at hlen ⊢; omega)
          hcfg
          (by
            intro m hm
            have hm2 : m + 1 < (a :: b :: rest2).length - 1 := by simp at hm ⊢; omega
            have := hnoend (m + 1) hm2
            rw [hl1]
            have harith : s + (done.length + 1) + m = s + done.length + (m + 1) := by omega
            rw [harith]
            exact this)
          (by
            rw [hl1]
            have harith : s + (done.length + 1) + ((b :: rest2).length - 1)
                = s + done.length + ((a :: b :: rest2).length - 1) := by simp; omega
            rw [harith]
            exact hend)
        rw [hl1] at this
        have harith2 : s + (done.length + 1) = s + done.length + 1 := by omega
        rw [harith2] at this
        exact this
      rw [afcaGo, if_pos hccw, hpw]
      simp only
      rw [hrec]
      simp only
      have hfix : (done ++ [a]) ++ (b :: rest2) = done ++ (a :: b :: rest2) := by
        simp
      rw [hfix]
      rfl

lemma fetchBlock_eq_map (cfgCount : Nat) (pf : Bool) (r : List Action)
    (hI : ∀ a ∈ r, a.cfgChannelIndex < cfgCount) :
    (ccwIndexesOf r).map (mkFetchAction pf (totalsOf cfgCount r)) = fetchBlock pf r := by
  rw [fetchBlock]
  apply List.map_congr_left
  intro idx hidx
  obtain ⟨b, hb, hbj⟩ := mem_ccwIndexesOf hidx
  have hlt : idx < cfgCount := hbj ▸ hI b hb
  rw [mkFetchAction, totalsOf_getD r hlt]

lemma afcaGo_ccw_run_clean (cfgCount : Nat) (pf : Bool) (ends : List Nat) (s : Nat)
    (r : List Action)
    (hT : ∀ a ∈ r, a.typ = .WriteDataCcw)
    (hI : ∀ a ∈ r, a.cfgChannelIndex < cfgCount)
    (hne : r ≠ [])
    (hlen : r.length ≤ 65535)
    (hcfg : cfgCount ≤ 255)
    (hnoend : ∀ m, m < r.length - 1 → ends.contains (s + m) = false)
    (hend : ends.contains (s + (r.length - 1)) = true) :
    afcaGo cfgCount pf ends r s { pending := [], totals := List.replicate cfgCount 0 }
      = .ok (r ++ fetchBlock pf r,
        { pending := [], totals := List.replicate cfgCount 0 }) := by
  have h := afcaGo_ccw_run cfgCount pf ends s r [] hT hI (by simp) hne
    (by simpa using hlen) hcfg
    (by simpa using hnoend)
    (by simpa using hend)
  rw [ccwIndexesOf, totalsOf_nil] at h
  simp only [List.foldl_nil, List.length_nil, Nat.add_zero, List.nil_append] at h
  rw [fetchBlock_eq_map cfgCount pf r hI] at h
  exact h

lemma totalLen_append (xs ys : List (List Action)) :
    totalLen (xs ++ ys) = totalLen xs + totalLen ys := by
  simp [totalLen]

lemma totalLen_eq_flatten_length (xs : List (List Action)) :
    totalLen xs = xs.flatten.length := by
  rw [totalLen, List.length_flatten]

lemma afca_runs (cfgCount : Nat) (pf : Bool) (l : List Action)
    (hidx : ∀ a ∈ l, a.typ = .WriteDataCcw → a.cfgChannelIndex < cfgCount)
    (hlen : l.length ≤ 65535) (hcfg : cfgCount ≤ 255) :
    ∀ (cur past : List (List Action)), runsOf l = past ++ cur →
    afcaGo cfgCount pf (endIndexesOfType l .WriteDataCcw) cur.flatten (totalLen past)
        { pending := [], totals := List.replicate cfgCount 0 }
      = .ok (cur.flatMap (fun run =>
          if typAt run 0 = .WriteDataCcw then run ++ fetchBlock pf run else run),
        { pending := [], totals := List.replicate cfgCount 0 }) := by
  intro cur
  induction cur with
  | nil => intro past hsplit; rfl
  | cons r rs ih =>
    intro past hsplit
    have hr : r ∈ runsOf l := by rw [hsplit]; simp
    have hrne : r ≠ [] := runsOf_ne_nil l r hr
    have hrpos : 1 ≤ r.length := List.length_pos.mpr hrne
    have huni : ∀ a ∈ r, a.typ = typAt r 0 := runsOf_uniform l r hr
    have hmem : ∀ a ∈ r, a ∈ l := by
      intro a ha
      rw [← runsOf_flatten l]
      exact List.mem_flatten.mpr ⟨r, hr, ha⟩
    have hflat : l = past.flatten ++ (r :: rs).flatten := by
      conv_lhs => rw [← runsOf_flatten l, hsplit]
      rw [List.flatten_append]
    have hdrop : l.drop (totalLen past) = r ++ rs.flatten := by
      rw [totalLen_eq_flatten_length, hflat, List.drop_left]
      rfl
    have hrlen : r.length ≤ 65535 := by
      have h1 := congrArg List.length hdrop
      rw [List.length_drop, List.length_append] at h1
      omega
    have hnonempty : ∀ x ∈ runsOf l, x ≠ [] := runsOf_ne_nil l
    have htypAt : typAt l (totalLen past) = typAt r 0 :=
      typAt_of_drop_append l (totalLen past) r rs.flatten hdrop hrne
    have hendsEq : endIndexesOfType l .WriteDataCcw
        = runEndsFor l .WriteDataCcw 0 past
          ++ ((if typAt l (totalLen past) == .WriteDataCcw
                then [totalLen past + r.length - 1] else [])
              ++ runEndsFor l .WriteDataCcw (totalLen past + r.length) rs) := by
      rw [endIndexesOfType_eq, hsplit, runEndsFor_append, runEndsFor]
      have h0 : 0 + totalLen past = totalLen past := by omega
      rw [h0]
    have hmemEnds : ∀ j, totalLen past ≤ j → j < totalLen past + r.length →
        (j ∈ endIndexesOfType l .WriteDataCcw
          ↔ (typAt r 0 = .WriteDataCcw ∧ j = totalLen past + r.length - 1)) := by
      intro j hj1 hj2
      rw [hendsEq]
      constructor
      · intro hjmem
        rcases List.mem_append.mp hjmem with hjmem | hjmem
        · have := runEndsFor_ub l .WriteDataCcw past 0
            (fun x hx => hnonempty x (by rw [hsplit]; exact List.mem_append_left _ hx))
            j hjmem
          have hpl : totalLen past = 0 + totalLen past := by omega
          omega
        · rcases List.mem_append.mp hjmem with hjmem | hjmem
          · by_cases hty : typAt l (totalLen past) == ActionType.WriteDataCcw
            · rw [if_pos hty] at hjmem
              simp at hjmem
              refine ⟨?_, by omega⟩
              rw [← htypAt]
              exact beq_iff_eq.mp hty
            · rw [if_neg hty] at hjmem
              simp at hjmem
          · have := runEndsFor_lb l .WriteDataCcw rs (totalLen past + r.length)
              (fun x hx => hnonempty x
                (by rw [hsplit]; exact List.mem_append_right _ (by simp [hx])))
              j hjmem
            omega
      · intro ⟨hty, hje⟩
        apply List.mem_append_right
        apply List.mem_append_left
        have hty2 : typAt l (totalLen past) == ActionType.WriteDataCcw := by
          rw [htypAt]
          exact beq_iff_eq.mpr hty
        rw [if_pos hty2]
        simp [hje]
    by_cases hA : typAt r 0 = .WriteDataCcw
    · have hT : ∀ a ∈ r, a.typ = .WriteDataCcw := fun a ha => (huni a ha).trans hA
      have hI : ∀ a ∈ r, a.cfgChannelIndex < cfgCount :=
        fun a ha => hidx a (hmem a ha) (hT a ha)
      have hnoend : ∀ m, m < r.length - 1 →
          (endIndexesOfType l .WriteDataCcw).contains (totalLen past + m) = false := by
        intro m hm
        have hnot : (totalLen past + m) ∉ endIndexesOfType l .WriteDataCcw := by
          intro hmemj
          have := (hmemEnds (totalLen past + m) (by omega) (by omega)).mp hmemj
          omega
        simp [hnot]
      have hend : (endIndexesOfType l .WriteDataCcw).contains
          (totalLen past + (r.length - 1)) = true := by
        have : (totalLen past + (r.length - 1)) ∈ endIndexesOfType l .WriteDataCcw := by
          apply (hmemEnds _ (by omega) (by omega)).mpr
          exact ⟨hA, by omega⟩
        simp [this]
      have h1 := afcaGo_ccw_run_clean cfgCount pf (endIndexesOfType l .WriteDataCcw)
        (totalLen past) r hT hI hrne hrlen hcfg hnoend hend
      have h2 := ih (past ++ [r]) (by rw [hsplit]; simp)
      rw [totalLen_append] at h2
      have harith : totalLen past + totalLen [r] = totalLen past + r.length := by
        simp [totalLen]
      rw [harith] at h2
      have := afcaGo_append cfgCount pf (endIndexesOfType l .WriteDataCcw)
        r rs.flatten (totalLen past) _ _ _ _ _ h1 (by rw [← h2])
      rw [List.flatten_cons] at *
      rw [this, List.flatMap_cons, if_pos hA]
    · have hT : ∀ a ∈ r, a.typ ≠ .WriteDataCcw := by
        intro a ha hc
        exact hA ((huni a ha).symm.trans hc)
      have h1 := afcaGo_no_ccw cfgCount pf (endIndexesOfType l .WriteDataCcw)
        r (totalLen past) { pending := [], totals := List.replicate cfgCount 0 } hT
      have h2 := ih (past ++ [r]) (by rw [hsplit]; simp)
      rw [totalLen_append] at h2
      have harith : totalLen past + totalLen [r] = totalLen past + r.length := by
        simp [totalLen]
      rw [harith] at h2
      have := afcaGo_append cfgCount pf (endIndexesOfType l .WriteDataCcw)
        r rs.flatten (totalLen past) _ _ _ _ _ h1 (by rw [← h2])
      rw [List.flatten_cons] at *
      rw [this, List.flatMap_cons, if_neg hA]

lemma addFetchConfigActions_eq_fetchSpec (cfgCount : Nat) (pf : Bool) (l : List Action)
    (hidx : ∀ a ∈ l, a.typ = .WriteDataCcw → a.cfgChannelIndex < cfgCount)
    (hlen : l.length ≤ 65535) (hcfg : cfgCount ≤ 255) :
    addFetchConfigActions cfgCount pf l = .ok (fetchSpec pf l) := by
  have h := afca_runs cfgCount pf l hidx hlen hcfg (runsOf l) [] (by simp)
  rw [runsOf_flatten l] at h
  have h0 : totalLen ([] : List (List Action)) = 0 := rfl
  rw [h0] at h
  rw [addFetchConfigActions, h]
  rfl

/-- Total configuration bytes written to `idx` so far. -/
def sumBytes (run : List Action) (idx : Nat) : Nat :=
  ((run.filter (fun a => a.cfgChannelIndex == idx)).map (fun a => a.dataLength)).sum

/-- Modelled from the spec's words (no counterpart in the source): the
spec's placement rule for pass A, in which the last write of a run is
"determined by comparing accumulated bytes for an index against that
index's precomputed total" `tot`.  When a write makes its index's
accumulated bytes reach the precomputed total, the fetch block for the
writes accumulated so far is appended and the accumulators are cleared. -/
def specByBytesGo (pf : Bool) (tot : Nat → Nat) :
    List Action → List Action → List Action
  | [], _ => []
  | a :: rest, run =>
    if a.typ = .WriteDataCcw then
      let run2 := run ++ [a]
      if sumBytes run2 a.cfgChannelIndex = tot a.cfgChannelIndex then
        a :: (fetchBlock pf run2 ++ specByBytesGo pf tot rest [])
      else
        a :: specByBytesGo pf tot rest run2
    else
      a :: specByBytesGo pf tot rest []

/-- Modelled from the spec's words: pass A as the spec describes it, with
byte-comparison deciding fetch placement. -/
def addFetchConfigActionsSpecByBytes (pf : Bool) (tot : Nat → Nat) (l : List Action) :
    List Action :=
  specByBytesGo pf tot l []

/-- A 4-byte configuration-word write to config channel 0. -/
def ccwWrite0 : Action := { typ := .WriteDataCcw, dataLength := 4 }

/-- A configuration-word write of `n` bytes to config channel 2. -/
def ccwWrite2 (n : Nat) : Action :=
  { typ := .WriteDataCcw, cfgChannelIndex := 2, dataLength := n }

/-- Counterexample to C6's placement rule: on a run of two 4-byte writes to
config channel 0 whose precomputed per-index total is 4 bytes, the code
(`add_fetch_config_actions`, which closes a fetch group only at the
positional end of the run of `WriteDataCcw` actions) emits a single fetch
carrying both bursts after the second write, while the spec's
byte-comparison rule already fires after the first write, so the two
disagree. -/
theorem add_fetch_insertion_cex :
    addFetchConfigActions 1 true [ccwWrite0, ccwWrite0]
        = .ok [ccwWrite0, ccwWrite0,
               { typ := .AddCcwBurst, cfgChannelIndex := 0, ccwBursts := 2 }]
    ∧ addFetchConfigActionsSpecByBytes true (fun _ => 4) [ccwWrite0, ccwWrite0]
        ≠ [ccwWrite0, ccwWrite0,
           { typ := .AddCcwBurst, cfgChannelIndex := 0, ccwBursts := 2 }] := by
  constructor
  · decide
  · decide

/-- C6 (corrected): pass A appends, after the positionally last write of
each maximal run of `WriteDataCcw` actions (not after a byte-total
comparison — bytes only decide nop padding elsewhere), exactly one
burst-fetch (`AddCcwBurst`) action per touched config channel when burst
pre-fetch is supported, else one `CreateConfigDescAndFetch` action, in
ascending channel order with that channel's write count as its burst
count, and the accumulators restart clean for the next run; in
particular three consecutive writes to config channel 2 yield exactly
one fetch action, for channel 2, after the third write. -/
theorem add_fetch_insertion :
    (∀ (cfgCount : Nat) (pf : Bool) (l : List Action),
      (∀ a ∈ l, a.typ = .WriteDataCcw → a.cfgChannelIndex < cfgCount) →
      l.length ≤ 65535 → cfgCount ≤ 255 →
      addFetchConfigActions cfgCount pf l = .ok (fetchSpec pf l))
    ∧ addFetchConfigActions 3 true [ccwWrite2 4, ccwWrite2 4, ccwWrite2 8]
        = .ok [ccwWrite2 4, ccwWrite2 4, ccwWrite2 8,
               { typ := .AddCcwBurst, cfgChannelIndex := 2, ccwBursts := 3 }] := by
  constructor
  · intro cfgCount pf l hidx hlen hcfg
    exact addFetchConfigActions_eq_fetchSpec cfgCount pf l hidx hlen hcfg
  · decide

/-- Witness: the characterization applied to a concrete singleton list. -/
theorem add_fetch_insertion_witness :
    addFetchConfigActions 2 false [ccwWrite0] = .ok (fetchSpec false [ccwWrite0]) :=
  add_fetch_insertion.1 2 false [ccwWrite0] (by decide) (by decide) (by decide)

/-- The rewrite pipeline run by `parse_actions_in_operation` of `hef.cpp`:
pass A (`add_fetch_config_actions`), then pass B
(`handle_edge_layer_activation_actions`), then pass C
(`handle_repeated_actions`). -/
def processOperationActions (cfgCount : Nat) (pf : Bool) (cfg : OperationCfg)
    (pairs : List DdrPairRec) (l : List Action) : Except HailoStatus (List Action) := do
  let l1 ← addFetchConfigActions cfgCount pf l
  let l2 ← handleEdgeLayerActivationActions cfg pairs l1
  handleRepeatedActions l2

lemma hraGo_nil : ∀ (fuel : Nat) (acts : List Action) (i : Nat), i + fuel ≤ acts.length →
    hraGo [] fuel acts i = .ok ((acts.drop i).take fuel)
  | 0, acts, i, _ => by simp [hraGo]
  | fuel + 1, acts, i, h => by
      have hi : i < acts.length := by omega
      rw [hraGo]
      have hl : lookupStart [] i = none := rfl
      rw [hl]
      simp only
      rw [hraGo_nil fuel acts (i + 1) (by omega)]
      rw [drop_eq_getD_cons acts i hi, List.take_succ_cons]
      rfl

lemma handleRepeatedActions_no_starts (l : List Action)
    (h : getStartIndexes l (boundaries l) = []) :
    handleRepeatedActions l = .ok l := by
  rw [handleRepeatedActions, h, hraGo_nil l.length l 0 (by omega)]
  simp

lemma addFetchConfigActions_no_ccw (cfgCount : Nat) (pf : Bool) (l : List Action)
    (h : ∀ a ∈ l, a.typ ≠ .WriteDataCcw) :
    addFetchConfigActions cfgCount pf l = .ok l := by
  rw [addFetchConfigActions,
    afcaGo_no_ccw cfgCount pf (endIndexesOfType l .WriteDataCcw) l 0 _ h]
  rfl

lemma proccessWriteCcw_out_len (cfgCount : Nat) (pf : Bool) (isEnd : Bool) (a : Action)
    (st st2 : FetchState) (out : List Action)
    (h : proccessWriteCcwAction cfgCount pf isEnd a st = .ok (st2, out)) :
    1 ≤ out.length := by
  rw [proccessWriteCcwAction] at h
  split at h
  · exact absurd h (by simp)
  · split at h
    · exact absurd h (by simp)
    · simp only at h
      split at h
      · split at h
        · exact absurd h (by simp)
        · rename_i fetch heq
          have h2 : a :: fetch = out := by
            injection h with h1
            injection h1 with ha hb
          rw [← h2]
          simp
      · have h2 : [a] = out := by
          injection h with h1
          injection h1 with ha hb
        rw [← h2]
        simp

lemma afcaGo_len_mono (cfgCount : Nat) (pf : Bool) (ends : List Nat) :
    ∀ (xs : List Action) (i : Nat) (st : FetchState) (out : List Action) (st2 : FetchState),
      afcaGo cfgCount pf ends xs i st = .ok (out, st2) → xs.length ≤ out.length
  | [], i, st, out, st2 => by
      rw [afcaGo]
      intro h
      simp
  | a :: rest, i, st, out, st2 => by
      intro h
      by_cases ht : a.typ = .WriteDataCcw
      · rw [afcaGo, if_pos ht] at h
        rcases hpw : proccessWriteCcwAction cfgCount pf (ends.contains i) a st with e | p
        · rw [hpw] at h
          exact absurd h (by simp)
        · obtain ⟨stm, o1⟩ := p
          rw [hpw] at h
          simp only at h
          rcases hrec : afcaGo cfgCount pf ends rest (i + 1) stm with e | q
          · rw [hrec] at h
            exact absurd h (by simp)
          · obtain ⟨tail, st3⟩ := q
            rw [hrec] at h
            simp only at h
            have h1 : o1 ++ tail = out := by
              injection h with h1
              injection h1 with ha hb
            have m1 := proccessWriteCcw_out_len cfgCount pf (ends.contains i) a st stm o1 hpw
            have m2 := afcaGo_len_mono cfgCount pf ends rest (i + 1) stm tail st3 hrec
            rw [← h1, List.length_append]
            simp only [List.length_cons]
            omega
      · rw [afcaGo, if_neg ht] at h
        rcases hrec : afcaGo cfgCount pf ends rest (i + 1) st with e | q
        · rw [hrec] at h
          exact absurd h (by simp)
        · obtain ⟨tail, st3⟩ := q
          rw [hrec] at h
          simp only at h
          have h1 : a :: tail = out := by
            injection h with h1
            injection h1 with ha hb
          have m2 := afcaGo_len_mono cfgCount pf ends rest (i + 1) st tail st3 hrec
          rw [← h1]
          simp only [List.length_cons]
          omega

lemma addFetchConfigActions_len_mono (cfgCount : Nat) (pf : Bool) (l l1 : List Action)
    (h : addFetchConfigActions cfgCount pf l = .ok l1) : l.length ≤ l1.length := by
  rw [addFetchConfigActions] at h
  rcases hg : afcaGo cfgCount pf (endIndexesOfType l .WriteDataCcw) l 0
      { pending := [], totals := List.replicate cfgCount 0 } with e | q
  · rw [hg] at h
    exact absurd h (by simp [Except.map])
  · obtain ⟨out, st⟩ := q
    rw [hg] at h
    have h2 : out = l1 := by
      simp only [Except.map] at h
      injection h
    rw [← h2]
    exact afcaGo_len_mono cfgCount pf (endIndexesOfType l .WriteDataCcw) l 0 _ out st hg

lemma heGo_head_len (gs ge i : Nat) (pairs : List DdrPairRec) (a : Action) :
    1 ≤ (if a.typ = .TriggerNewDataFromDataInput
      then proccessTriggerNewDataInputAction gs ge i pairs a else [a]).length := by
  by_cases ht : a.typ = .TriggerNewDataFromDataInput
  · rw [if_pos ht, proccessTriggerNewDataInputAction]
    simp only [List.length_append, List.length_cons]
    omega
  · rw [if_neg ht]
    simp

lemma heGo_len_mono (gs ge : Nat) (pairs : List DdrPairRec) :
    ∀ (seg : List Action) (i : Nat), seg.length ≤ (heGo gs ge pairs seg i).length
  | [], i => by simp [heGo]
  | a :: rest, i => by
      rw [heGo, List.length_append]
      have hrec := heGo_len_mono gs ge pairs rest (i + 1)
      have h1 := heGo_head_len gs ge i pairs a
      simp only [List.length_cons]
      omega

lemma heGo_strict (gs ge : Nat) (pairs : List DdrPairRec) :
    ∀ (seg : List Action) (i j : Nat), j < seg.length →
      (seg.getD j default).typ = .TriggerNewDataFromDataInput → i + j = gs →
      seg.length + 1 ≤ (heGo gs ge pairs seg i).length
  | [], i, j, hj, _, _ => by simp at hj
  | a :: rest, i, j, hj, hty, hgs => by
      rw [heGo, List.length_append]
      cases j with
      | zero =>
          have ha : a.typ = .TriggerNewDataFromDataInput := by
            simpa using hty
          have hi : gs = i := by omega
          have hrec := heGo_len_mono gs ge pairs rest (i + 1)
          rw [if_pos ha, proccessTriggerNewDataInputAction, if_pos hi]
          simp only [List.length_append, List.length_cons]
          omega
      | succ n =>
          have hty2 : (rest.getD n default).typ = .TriggerNewDataFromDataInput := by
            simpa using hty
          have hrec := heGo_strict gs ge pairs rest (i + 1) n
            (by simpa using hj) hty2 (by omega)
          have h1 := heGo_head_len gs ge i pairs a
          simp only [List.length_cons]
          omega

lemma handleEdge_len_mono (cfg : OperationCfg) (pairs : List DdrPairRec)
    (l1 l2 : List Action)
    (h : handleEdgeLayerActivationActions cfg pairs l1 = .ok l2) :
    l1.length ≤ l2.length := by
  by_cases he : eligibleForEdgeActivation cfg = false
  · rw [handleEdge_not_eligible cfg pairs l1 he] at h
    have h2 : l1 = l2 := by injection h
    rw [h2]
  · have he2 : eligibleForEdgeActivation cfg = true := by
      cases hb : eligibleForEdgeActivation cfg
      · exact absurd hb he
      · rfl
    rw [handleEdge_eligible cfg pairs l1 he2] at h
    rcases hlist : indexesOfType l1 .TriggerNewDataFromDataInput with _ | ⟨p, tail⟩
    · rw [hlist] at h
      exact absurd h (by simp)
    · obtain ⟨gs, ge⟩ := p
      cases tail with
      | nil =>
          rw [hlist] at h
          simp only at h
          have h2 : heGo gs ge pairs l1 0 = l2 := by injection h
          rw [← h2]
          exact heGo_len_mono gs ge pairs l1 0
      | cons q tail2 =>
          rw [hlist] at h
          exact absurd h (by simp)

lemma hraGo_len_mono (starts : List (Nat × Nat)) :
    ∀ (fuel : Nat) (acts : List Action) (i : Nat) (out : List Action),
      hraGo starts fuel acts i = .ok out → fuel ≤ out.length
  | 0, acts, i, out => by
      intro h
      omega
  | fuel + 1, acts, i, out => by
      intro h
      rcases hls : lookupStart starts i with _ | c
      · rw [hraGo_succ_none starts fuel acts i hls] at h
        rcases hrec : hraGo starts fuel acts (i + 1) with e | rest
        · rw [hrec] at h
          have hcoerce : (Except.error e : Except HailoStatus (List Action)) = .ok out := h
          exact absurd hcoerce (by simp)
        · rw [hrec] at h
          have h2 : Except.ok (acts.getD i default :: rest)
              = (Except.ok out : Except HailoStatus (List Action)) := h
          have h3 : acts.getD i default :: rest = out := by injection h2
          have m := hraGo_len_mono starts fuel acts (i + 1) rest hrec
          rw [← h3]
          simp only [List.length_cons]
          omega
      · rw [hraGo_succ_some starts fuel acts i c hls] at h
        rcases hcr : RepeatedHeaderAction.create (actionListType (typAt acts i)) c
            with e | header
        · rw [hcr] at h
          have hcoerce : (Except.error e : Except HailoStatus (List Action)) = .ok out := h
          exact absurd hcoerce (by simp)
        · rw [hcr] at h
          rcases hrec : hraGo starts fuel (setFlagRange acts i c) (i + 1) with e | rest
          · rw [hrec] at h
            have hcoerce : (Except.error e : Except HailoStatus (List Action)) = .ok out := h
            exact absurd hcoerce (by simp)
          · rw [hrec] at h
            have h2 : Except.ok (header :: (setFlagRange acts i c).getD i default :: rest)
                = (Except.ok out : Except HailoStatus (List Action)) := h
            have h3 : header :: (setFlagRange acts i c).getD i default :: rest = out := by
              injection h2
            have m := hraGo_len_mono starts fuel (setFlagRange acts i c) (i + 1) rest hrec
            rw [← h3]
            simp only [List.length_cons]
            omega

lemma hraGo_strict (starts : List (Nat × Nat)) :
    ∀ (fuel : Nat) (acts : List Action) (i : Nat) (out : List Action) (s : Nat),
      hraGo starts fuel acts i = .ok out →
      i ≤ s → s < i + fuel → (lookupStart starts s).isSome = true →
      fuel + 1 ≤ out.length
  | 0, acts, i, out, s => by
      intro h h1 h2
      omega
  | fuel + 1, acts, i, out, s => by
      intro h h1 h2 hsome
      rcases hls : lookupStart starts i with _ | c
      · rw [hraGo_succ_none starts fuel acts i hls] at h
        rcases hrec : hraGo starts fuel acts (i + 1) with e | rest
        · rw [hrec] at h
          have hcoerce : (Except.error e : Except HailoStatus (List Action)) = .ok out := h
          exact absurd hcoerce (by simp)
        · rw [hrec] at h
          have h3 : acts.getD i default :: rest = out := by
            have h2b : Except.ok (acts.getD i default :: rest)
                = (Except.ok out : Except HailoStatus (List Action)) := h
            injection h2b
          have hne : s ≠ i := by
            intro hsi
            rw [hsi, hls] at hsome
            simp at hsome
          have m := hraGo_strict starts fuel acts (i + 1) rest s hrec
            (by omega) (by omega) hsome
          rw [← h3]
          simp only [List.length_cons]
          omega
      · rw [hraGo_succ_some starts fuel acts i c hls] at h
        rcases hcr : RepeatedHeaderAction.create (actionListType (typAt acts i)) c
            with e | header
        · rw [hcr] at h
          have hcoerce : (Except.error e : Except HailoStatus (List Action)) = .ok out := h
          exact absurd hcoerce (by simp)
        · rw [hcr] at h
          rcases hrec : hraGo starts fuel (setFlagRange acts i c) (i + 1) with e | rest
          · rw [hrec] at h
            have hcoerce : (Except.error e : Except HailoStatus (List Action)) = .ok out := h
            exact absurd hcoerce (by simp)
          · rw [hrec] at h
            have h3 : header :: (setFlagRange acts i c).getD i default :: rest = out := by
              have h2b : Except.ok (header :: (setFlagRange acts i c).getD i default :: rest)
                  = (Except.ok out : Except HailoStatus (List Action)) := h
              injection h2b
            have m := hraGo_len_mono starts fuel (setFlagRange acts i c) (i + 1) rest hrec
            rw [← h3]
            simp only [List.length_cons]
            omega

lemma lookupStart_isSome_of_mem (starts : List (Nat × Nat)) (s c : Nat)
    (h : (s, c) ∈ starts) : (lookupStart starts s).isSome = true := by
  rw [lookupStart]
  rcases hf : starts.find? (fun q => q.1 == s) with _ | q
  · have h2 := List.find?_eq_none.mp hf (s, c) h
    simp at h2
  · simp
    exact ⟨c, h⟩

lemma getStartIndexes_lt_length (l : List Action) (s c : Nat)
    (h : (s, c) ∈ getStartIndexes l (boundaries l)) : s < l.length := by
  rw [getStartIndexes, List.mem_flatMap] at h
  obtain ⟨p, hp, hmem⟩ := h
  by_cases hsup : supportsRepeatedBlock (typAt l p.1)
  · rw [if_pos hsup] at hmem
    have hcs := chunkStarts_spec p.1 p.2 (s, c) hmem
    have hb := boundaries_bounds l p hp
    simp only at hcs
    omega
  · rw [if_neg hsup] at hmem
    simp at hmem

lemma insertSorted_ne_nil (x : Nat) : ∀ (l : List Nat), insertSorted x l ≠ []
  | [] => by simp [insertSorted]
  | y :: rest => by
      rw [insertSorted]
      by_cases h1 : x < y
      · simp [h1]
      · by_cases h2 : x = y
        · simp [h1, h2]
        · simp [h1, h2]

lemma ccwIndexesOf_ne_nil : ∀ (run : List Action), run ≠ [] → ccwIndexesOf run ≠ [] := by
  have gen : ∀ (run : List Action) (p : List Nat), p ≠ [] →
      run.foldl (fun q a => insertSorted a.cfgChannelIndex q) p ≠ [] := by
    intro run
    induction run with
    | nil => intro p hp; exact hp
    | cons a rest ih =>
        intro p hp
        exact ih (insertSorted a.cfgChannelIndex p) (insertSorted_ne_nil _ p)
  intro run hrun
  cases run with
  | nil => exact absurd rfl hrun
  | cons a rest =>
      rw [ccwIndexesOf, List.foldl_cons]
      exact gen rest _ (insertSorted_ne_nil _ [])

lemma fetchSpec_flatMap_mono (pf : Bool) :
    ∀ (rs : List (List Action)),
      totalLen rs ≤ ((rs.flatMap (fun run =>
        if typAt run 0 = .WriteDataCcw then run ++ fetchBlock pf run else run)).length)
  | [] => by simp [totalLen]
  | r :: rest => by
      rw [List.flatMap_cons, List.length_append, totalLen_cons]
      have hrec := fetchSpec_flatMap_mono pf rest
      by_cases ht : typAt r 0 = .WriteDataCcw
      · rw [if_pos ht, List.length_append]
        omega
      · rw [if_neg ht]
        omega

lemma fetchSpec_flatMap_strict (pf : Bool) :
    ∀ (rs : List (List Action)) (r0 : List Action), r0 ∈ rs →
      typAt r0 0 = .WriteDataCcw → r0 ≠ [] →
      totalLen rs < ((rs.flatMap (fun run =>
        if typAt run 0 = .WriteDataCcw then run ++ fetchBlock pf run else run)).length)
  | [], r0, h0, _, _ => by simp at h0
  | r :: rest, r0, h0, hty, hne => by
      rw [List.flatMap_cons, List.length_append, totalLen_cons]
      rcases List.mem_cons.mp h0 with h0 | h0
      · subst h0
        rw [if_pos hty, List.length_append]
        have hfb : 1 ≤ (fetchBlock pf r0).length := by
          rw [fetchBlock, List.length_map]
          have := ccwIndexesOf_ne_nil r0 hne
          have := List.length_pos.mpr this
          omega
        have hrec := fetchSpec_flatMap_mono pf rest
        omega
      · have hrec := fetchSpec_flatMap_strict pf rest r0 h0 hty hne
        by_cases ht : typAt r 0 = .WriteDataCcw
        · rw [if_pos ht, List.length_append]
          omega
        · rw [if_neg ht]
          omega

lemma fetchSpec_length_strict (pf : Bool) (l : List Action)
    (h : ∃ a ∈ l, a.typ = .WriteDataCcw) : l.length < (fetchSpec pf l).length := by
  obtain ⟨a, ha, hccw⟩ := h
  have ha2 : a ∈ (runsOf l).flatten := by rwa [runsOf_flatten]
  obtain ⟨r, hr, har⟩ := List.mem_flatten.mp ha2
  have hrne : r ≠ [] := runsOf_ne_nil l r hr
  have hty : typAt r 0 = .WriteDataCcw := by
    have := runsOf_uniform l r hr a har
    rw [← this, hccw]
  have := fetchSpec_flatMap_strict pf (runsOf l) r hr hty hrne
  rw [totalLen_runsOf] at this
  exact this

lemma processOperation_decompose (cfgCount : Nat) (pf : Bool) (cfg : OperationCfg)
    (pairs : List DdrPairRec) (l lf : List Action)
    (h : processOperationActions cfgCount pf cfg pairs l = .ok lf) :
    ∃ l1 l2, addFetchConfigActions cfgCount pf l = .ok l1
      ∧ handleEdgeLayerActivationActions cfg pairs l1 = .ok l2
      ∧ handleRepeatedActions l2 = .ok lf := by
  rw [processOperationActions] at h
  rcases hA : addFetchConfigActions cfgCount pf l with e | l1
  · rw [hA] at h
    have hcoerce : (Except.error e : Except HailoStatus (List Action)) = .ok lf := h
    exact absurd hcoerce (by simp)
  · rw [hA] at h
    have h2 : (do
        let l2 ← handleEdgeLayerActivationActions cfg pairs l1
        handleRepeatedActions l2) = Except.ok lf := h
    rcases hB : handleEdgeLayerActivationActions cfg pairs l1 with e | l2
    · rw [hB] at h2
      have hcoerce : (Except.error e : Except HailoStatus (List Action)) = .ok lf := h2
      exact absurd hcoerce (by simp)
    · rw [hB] at h2
      have h3 : handleRepeatedActions l2 = Except.ok lf := h2
      exact ⟨l1, l2, rfl, hB, h3⟩

/-- An operation that is neither a preliminary context nor a first
operation, so pass B leaves it untouched. -/
def cfgPlain : OperationCfg :=
  { isPreliminaryContext := false, preliminaryRunAsap := false, isFirstOperation := false }

/-- The pipeline output for two consecutive `DisableLcu` actions: a
repeated-block header followed by the two actions, flagged in place. -/
def out1A : List Action :=
  [{ typ := .AddRrepeated, numActions := 2, subActionType := .disableLcu },
   { typ := .DisableLcu, isInRepeatedBlock := true },
   { typ := .DisableLcu, isInRepeatedBlock := true }]

/-- Counterexample to C2: two consecutive `DisableLcu` actions are
compressed by the first pipeline run into a header plus the two flagged
actions, but a second run of the pipeline on that output inserts a second
header in front of the still-adjacent `DisableLcu` pair (pass C keys on
action types only, and a header does not shield its members), so the
pipeline is not idempotent. -/
theorem pipeline_rerun_cex :
    processOperationActions 0 true cfgPlain [] [dlAction, dlAction] = .ok out1A
    ∧ processOperationActions 0 true cfgPlain [] out1A ≠ .ok out1A := by
  constructor
  · decide
  · decide

/-- C2 (corrected): the rewrite pipeline is not idempotent in general
(see the counterexample).  For any parser-valid input (configuration-word
writes target channels below the config-channel count, at most 65535
actions, at most 255 config channels), a second run is the identity
exactly when nothing triggers any pass: no `WriteDataCcw` action for
pass A, an operation not eligible for edge-layer activation for pass B,
and an empty repeated-chunk start map for pass C — whenever any pass
triggers, the output differs from the input (or the run fails). -/
theorem pipeline_second_run (cfgCount : Nat) (pf : Bool) (cfg : OperationCfg)
    (pairs : List DdrPairRec) (l : List Action)
    (hidx : ∀ a ∈ l, a.typ = .WriteDataCcw → a.cfgChannelIndex < cfgCount)
    (hlen : l.length ≤ 65535) (hcfg : cfgCount ≤ 255) :
    processOperationActions cfgCount pf cfg pairs l = .ok l
      ↔ ((∀ a ∈ l, a.typ ≠ .WriteDataCcw)
         ∧ eligibleForEdgeActivation cfg = false
         ∧ getStartIndexes l (boundaries l) = []) := by
  constructor
  · intro h
    obtain ⟨l1, l2, hA, hB, hC⟩ :=
      processOperation_decompose cfgCount pf cfg pairs l l h
    have mono1 : l.length ≤ l1.length := addFetchConfigActions_len_mono cfgCount pf l l1 hA
    have mono2 : l1.length ≤ l2.length := handleEdge_len_mono cfg pairs l1 l2 hB
    have mono3 : l2.length ≤ l.length := by
      rw [handleRepeatedActions] at hC
      exact hraGo_len_mono (getStartIndexes l2 (boundaries l2)) l2.length l2 0 l hC
    have hccw : ∀ a ∈ l, a.typ ≠ .WriteDataCcw := by
      intro a ha hc
      have hchar : addFetchConfigActions cfgCount pf l = .ok (fetchSpec pf l) :=
        addFetchConfigActions_eq_fetchSpec cfgCount pf l hidx hlen hcfg
      have hl1 : l1 = fetchSpec pf l := by
        rw [hA] at hchar
        injection hchar
      have hstrict := fetchSpec_length_strict pf l ⟨a, ha, hc⟩
      rw [← hl1] at hstrict
      omega
    have helig : eligibleForEdgeActivation cfg = false := by
      by_contra hne
      have he2 : eligibleForEdgeActivation cfg = true := by
        cases hb : eligibleForEdgeActivation cfg
        · exact absurd hb hne
        · rfl
      rw [handleEdge_eligible cfg pairs l1 he2] at hB
      rcases hlist : indexesOfType l1 .TriggerNewDataFromDataInput with _ | ⟨p, tail⟩
      · rw [hlist] at hB
        exact absurd hB (by simp)
      · obtain ⟨gs, ge⟩ := p
        cases tail with
        | nil =>
            rw [hlist] at hB
            simp only at hB
            have hl2 : heGo gs ge pairs l1 0 = l2 := by injection hB
            have hmem : (gs, ge) ∈ indexesOfType l1 .TriggerNewDataFromDataInput := by
              rw [hlist]
              simp
            have hmemB : (gs, ge) ∈ boundaries l1 :=
              (List.mem_filter.mp hmem).1
            have hbd := boundaries_bounds l1 (gs, ge) hmemB
            have hty : typAt l1 gs = .TriggerNewDataFromDataInput := by
              have := (List.mem_filter.mp hmem).2
              simpa using this
            have hstrict := heGo_strict gs ge pairs l1 0 gs
              (by simp only at hbd; omega)
              (by
                rw [typAt] at hty
                exact hty)
              (by omega)
            rw [hl2] at hstrict
            omega
        | cons q tail2 =>
            rw [hlist] at hB
            exact absurd hB (by simp)
    have hAok : addFetchConfigActions cfgCount pf l = .ok l :=
      addFetchConfigActions_no_ccw cfgCount pf l hccw
    have hl1 : l1 = l := by
      rw [hA] at hAok
      injection hAok
    have hBok : handleEdgeLayerActivationActions cfg pairs l = .ok l :=
      handleEdge_not_eligible cfg pairs l helig
    have hl2 : l2 = l := by
      rw [hl1] at hB
      rw [hB] at hBok
      injection hBok
    refine ⟨hccw, helig, ?_⟩
    by_contra hs
    rcases hne : getStartIndexes l (boundaries l) with _ | ⟨p, rest⟩
    · exact hs hne
    · obtain ⟨sIdx, cCnt⟩ := p
      have hmem : (sIdx, cCnt) ∈ getStartIndexes l (boundaries l) := by
        rw [hne]
        simp
      have hsl : sIdx < l.length := getStartIndexes_lt_length l sIdx cCnt hmem
      have hsome : (lookupStart (getStartIndexes l (boundaries l)) sIdx).isSome = true :=
        lookupStart_isSome_of_mem (getStartIndexes l (boundaries l)) sIdx cCnt hmem
      rw [hl2, handleRepeatedActions] at hC
      have := hraGo_strict (getStartIndexes l (boundaries l)) l.length l 0 l sIdx
        hC (by omega) (by omega) hsome
      omega
  · intro ⟨h1, h2, h3⟩
    rw [processOperationActions, addFetchConfigActions_no_ccw cfgCount pf l h1]
    show (do
      let l2 ← handleEdgeLayerActivationActions cfg pairs l
      handleRepeatedActions l2) = Except.ok l
    rw [handleEdge_not_eligible cfg pairs l h2]
    show handleRepeatedActions l = Except.ok l
    exact handleRepeatedActions_no_starts l h3

/-- Witness: both directions at a lone position marker, which triggers
no pass. -/
theorem pipeline_second_run_witness :
    processOperationActions 0 false cfgPlain [] [markerAction] = .ok [markerAction] :=
  (pipeline_second_run 0 false cfgPlain [] [markerAction]
    (by decide) (by decide) (by decide)).mpr ⟨by decide, by decide, by decide⟩

/-- The fields of `DdrLayerInfo` consulted by `check_ddr_pairs_match`:
`stream_index`, `dst_stream_index`, `nn_stream_config.core_bytes_per_buffer`
and `total_buffers_per_frame`. -/
structure DdrLayerInfo where
  streamIndex : Nat
  dstStreamIndex : Nat
  coreBytesPerBuffer : Nat
  totalBuffersPerFrame : Nat
deriving DecidableEq, Repr

/-- The inner loop of `check_ddr_pairs_match` over the input layers, with the
`found_mathing_layer` flag (source spelling): a second match or a geometry
mismatch is an `HAILO_INVALID_HEF` failure. -/
def checkDdrPairsInner (outL : DdrLayerInfo) :
    List DdrLayerInfo → Bool → Except HailoStatus Bool
  | [], found => .ok found
  | inL :: rest, found =>
    if inL.streamIndex = outL.dstStreamIndex then
      if found then .error .invalidHef
      else if outL.coreBytesPerBuffer ≠ inL.coreBytesPerBuffer then .error .invalidHef
      else if outL.totalBuffersPerFrame ≠ inL.totalBuffersPerFrame then .error .invalidHef
      else checkDdrPairsInner outL rest true
    else checkDdrPairsInner outL rest found

/-- The outer loop of `check_ddr_pairs_match` over the output layers: after
scanning all inputs, not having found a match is an `HAILO_INVALID_HEF`
failure. -/
def checkDdrPairsOuter (ins : List DdrLayerInfo) :
    List DdrLayerInfo → Except HailoStatus Unit
  | [] => .ok ()
  | outL :: rest =>
    match checkDdrPairsInner outL ins false with
    | .error e => .error e
    | .ok found => if found then checkDdrPairsOuter ins rest else .error .invalidHef

/-- `HefUtils::check_ddr_pairs_match` of `hef.cpp`. -/
def checkDdrPairsMatch (ins outs : List DdrLayerInfo) : Except HailoStatus Unit :=
  if ins.length ≠ outs.length then .error .invalidHef
  else checkDdrPairsOuter ins outs

lemma inner_true (outL : DdrLayerInfo) :
    ∀ ins : List DdrLayerInfo, checkDdrPairsInner outL ins true = .ok true
      ↔ ∀ i ∈ ins, ¬ i.streamIndex = outL.dstStreamIndex
  | [] => by simp [checkDdrPairsInner]
  | inL :: rest => by
      rw [checkDdrPairsInner]
      by_cases hm : inL.streamIndex = outL.dstStreamIndex
      · rw [if_pos hm, if_pos rfl]
        simp [hm]
      · rw [if_neg hm, inner_true outL rest]
        simp [hm]

lemma inner_false (outL : DdrLayerInfo) :
    ∀ ins : List DdrLayerInfo, checkDdrPairsInner outL ins false = .ok true
      ↔ (ins.countP (fun i => i.streamIndex == outL.dstStreamIndex) = 1
         ∧ ∀ i ∈ ins, i.streamIndex = outL.dstStreamIndex →
            outL.coreBytesPerBuffer = i.coreBytesPerBuffer
            ∧ outL.totalBuffersPerFrame = i.totalBuffersPerFrame)
  | [] => by simp [checkDdrPairsInner]
  | inL :: rest => by
      rw [checkDdrPairsInner, List.countP_cons]
      by_cases hm : inL.streamIndex = outL.dstStreamIndex
      · rw [if_pos hm, if_neg (by simp)]
        by_cases hc : outL.coreBytesPerBuffer = inL.coreBytesPerBuffer
        · by_cases ht : outL.totalBuffersPerFrame = inL.totalBuffersPerFrame
          · rw [if_neg (by simpa using hc), if_neg (by simpa using ht), inner_true outL rest]
            have hcnt : (fun i => i.streamIndex == outL.dstStreamIndex) inL = true := by
              simpa using hm
            rw [if_pos hcnt]
            constructor
            · intro hno
              refine ⟨?_, ?_⟩
              · have : rest.countP (fun i => i.streamIndex == outL.dstStreamIndex) = 0 := by
                  rw [List.countP_eq_zero]
                  intro i hi
                  simpa using hno i hi
                omega
              · intro i hi hmi
                rcases List.mem_cons.mp hi with hi | hi
                · subst hi
                  exact ⟨hc, ht⟩
                · exact absurd hmi (hno i hi)
            · intro ⟨hcnt1, _⟩
              intro i hi
              have : rest.countP (fun i => i.streamIndex == outL.dstStreamIndex) = 0 := by
                omega
              have := List.countP_eq_zero.mp this i hi
              simpa using this
          · rw [if_neg (by simpa using hc), if_pos (by simpa using ht)]
            constructor
            · intro h
              exact absurd h (by simp)
            · intro ⟨_, hgeom⟩
              exact absurd (hgeom inL (by simp) hm).2 ht
        · rw [if_pos (by simpa using hc)]
          constructor
          · intro h
            exact absurd h (by simp)
          · intro ⟨_, hgeom⟩
            exact absurd (hgeom inL (by simp) hm).1 hc
      · rw [if_neg hm, inner_false outL rest]
        have hcnt : ¬ (fun i => i.streamIndex == outL.dstStreamIndex) inL = true := by
          simpa using hm
        rw [if_neg hcnt]
        constructor
        · intro ⟨h1, h2⟩
          refine ⟨h1, ?_⟩
          intro i hi hmi
          rcases List.mem_cons.mp hi with hi | hi
          · subst hi
            exact absurd hmi hm
          · exact h2 i hi hmi
        · intro ⟨h1, h2⟩
          exact ⟨h1, fun i hi hmi => h2 i (by simp [hi]) hmi⟩

lemma inner_error (outL : DdrLayerInfo) :
    ∀ (ins : List DdrLayerInfo) (found : Bool) (e : HailoStatus),
      checkDdrPairsInner outL ins found = .error e → e = .invalidHef
  | [], found, e => by simp [checkDdrPairsInner]
  | inL :: rest, found, e => by
      rw [checkDdrPairsInner]
      by_cases hm : inL.streamIndex = outL.dstStreamIndex
      · rw [if_pos hm]
        cases found with
        | true =>
            rw [if_pos rfl]
            intro h
            injection h with h
            exact h.symm
        | false =>
            rw [if_neg (by simp)]
            by_cases hc : outL.coreBytesPerBuffer ≠ inL.coreBytesPerBuffer
            · rw [if_pos hc]
              intro h
              injection h with h
              exact h.symm
            · rw [if_neg hc]
              by_cases ht : outL.totalBuffersPerFrame ≠ inL.totalBuffersPerFrame
              · rw [if_pos ht]
                intro h
                injection h with h
                exact h.symm
              · rw [if_neg ht]
                exact inner_error outL rest true e
      · rw [if_neg hm]
        exact inner_error outL rest found e

lemma inner_true_not_false (outL : DdrLayerInfo) :
    ∀ ins : List DdrLayerInfo, checkDdrPairsInner outL ins true ≠ .ok false
  | [] => by simp [checkDdrPairsInner]
  | inL :: rest => by
      rw [checkDdrPairsInner]
      by_cases hm : inL.streamIndex = outL.dstStreamIndex
      · rw [if_pos hm, if_pos rfl]
        simp
      · rw [if_neg hm]
        exact inner_true_not_false outL rest

lemma outer_ok (ins : List DdrLayerInfo) :
    ∀ outs : List DdrLayerInfo, checkDdrPairsOuter ins outs = .ok ()
      ↔ ∀ o ∈ outs, checkDdrPairsInner o ins false = .ok true
  | [] => by simp [checkDdrPairsOuter]
  | outL :: rest => by
      rw [checkDdrPairsOuter]
      rcases hres : checkDdrPairsInner outL ins false with e | found
      · simp only
        constructor
        · intro h
          exact absurd h (by simp)
        · intro h
          have := h outL (by simp)
          rw [hres] at this
          exact absurd this (by simp)
      · simp only
        cases found with
        | true =>
            rw [if_pos rfl, outer_ok ins rest]
            constructor
            · intro h
              intro o ho
              rcases List.mem_cons.mp ho with ho | ho
              · rw [ho]
                exact hres
              · exact h o ho
            · intro h
              exact fun o ho => h o (by simp [ho])
        | false =>
            rw [if_neg (by simp)]
            constructor
            · intro h
              exact absurd h (by simp)
            · intro h
              have := h outL (by simp)
              rw [hres] at this
              exact absurd this (by simp)

lemma outer_error (ins : List DdrLayerInfo) :
    ∀ (outs : List DdrLayerInfo) (e : HailoStatus),
      checkDdrPairsOuter ins outs = .error e → e = .invalidHef
  | [], e => by simp [checkDdrPairsOuter]
  | outL :: rest, e => by
      rw [checkDdrPairsOuter]
      rcases hres : checkDdrPairsInner outL ins false with e2 | found
      · simp only
        intro h
        injection h with h
        rw [← h]
        exact inner_error outL ins false e2 hres
      · simp only
        cases found with
        | true =>
            rw [if_pos rfl]
            exact outer_error ins rest e
        | false =>
            rw [if_neg (by simp)]
            intro h
            injection h with h
            exact h.symm

/-- C7: `check_ddr_pairs_match` succeeds exactly when the DDR input and
output layer lists of a context have equal sizes and every DDR output
layer's `dst_stream_index` matches the `stream_index` of exactly one DDR
input layer whose `core_bytes_per_buffer` and `total_buffers_per_frame`
geometry equals the output side's; every failure — size mismatch,
unmatched or multiply-matched output, or unequal geometry — is reported
as `HAILO_INVALID_HEF`. -/
theorem ddr_pairs_match_iff (ins outs : List DdrLayerInfo) :
    (checkDdrPairsMatch ins outs = .ok ()
      ↔ (ins.length = outs.length
         ∧ ∀ o ∈ outs,
            ins.countP (fun i => i.streamIndex == o.dstStreamIndex) = 1
            ∧ ∀ i ∈ ins, i.streamIndex = o.dstStreamIndex →
                o.coreBytesPerBuffer = i.coreBytesPerBuffer
                ∧ o.totalBuffersPerFrame = i.totalBuffersPerFrame))
    ∧ ∀ e, checkDdrPairsMatch ins outs = .error e → e = .invalidHef := by
  constructor
  · rw [checkDdrPairsMatch]
    by_cases hlen : ins.length ≠ outs.length
    · rw [if_pos hlen]
      constructor
      · intro h
        exact absurd h (by simp)
      · intro ⟨h1, _⟩
        exact absurd h1 hlen
    · rw [if_neg hlen, outer_ok ins outs]
      constructor
      · intro h
        refine ⟨by omega, ?_⟩
        intro o ho
        exact (inner_false o ins).mp (h o ho)
      · intro ⟨_, h⟩
        intro o ho
        exact (inner_false o ins).mpr (h o ho)
  · intro e
    rw [checkDdrPairsMatch]
    by_cases hlen : ins.length ≠ outs.length
    · rw [if_pos hlen]
      intro h
      injection h with h
      exact h.symm
    · rw [if_neg hlen]
      exact outer_error ins outs e

/-- Witness: a matched single DDR pair with equal geometry passes. -/
theorem ddr_pairs_match_iff_witness :
    checkDdrPairsMatch
        [{ streamIndex := 5, dstStreamIndex := 9, coreBytesPerBuffer := 64,
           totalBuffersPerFrame := 4 }]
        [{ streamIndex := 9, dstStreamIndex := 5, coreBytesPerBuffer := 64,
           totalBuffersPerFrame := 4 }] = .ok () :=
  (ddr_pairs_match_iff
    [{ streamIndex := 5, dstStreamIndex := 9, coreBytesPerBuffer := 64,
       totalBuffersPerFrame := 4 }]
    [{ streamIndex := 9, dstStreamIndex := 5, coreBytesPerBuffer := 64,
       totalBuffersPerFrame := 4 }]).1.mpr (by decide)

/-- The `CONTEXT_SWITCH_DEFS__ACTION_TYPE_t` values assigned by the action
constructors of `context_switch_actions.cpp`, with the `COUNT` sentinel. -/
inductive CSListType where
  | activateCfgChannel
  | deactivateCfgChannel
  | fetchCcwBursts
  | fetchCfgChannelDescriptors
  | burstCreditsTaskStart
  | applicationChangeInterrupt
  | repeatedAction
  | disableLcu
  | lcuInterrupt
  | enableLcuDefault
  | enableLcuNonDefault
  | triggerSequencer
  | sequencerDoneInterrupt
  | fetchDataFromVdmaChannel
  | moduleConfigDoneInterrupt
  | addDdrPairInfo
  | ddrBufferingStart
  | ddrBufferingReset
  | changeVdmaToStreamMapping
  | outputChannelTransferDoneInterrupt
  | openBoundaryInputChannel
  | openBoundaryOutputChannel
  | activateBoundaryInput
  | activateBoundaryOutput
  | activateInterContextInput
  | activateInterContextOutput
  | activateDdrBufferInput
  | activateDdrBufferOutput
  | validateVdmaChannel
  | deactivateVdmaChannel
  | waitForDmaIdle
  | waitForNms
  | enableNms
  | count
deriving DecidableEq, Repr

/-- The concrete non-repeated action classes of
`context_switch_actions.cpp` (`EnableLcuAction` carries its `is_default`
mode, which selects both its `Type` and its action-list type;
`AllowInputDataflowAction`'s only constructor fixes
`Type::TriggerNewDataFromDataInput`, the non-DDR variant). -/
inductive CSKind where
  | noneAction
  | activateConfigChannel
  | deactivateConfigChannel
  | writeDataCcw
  | addCcwBurst
  | fetchCfgChannelDescriptors
  | startBurstCreditsTask
  | waitForNetworkGroupChange
  | disableLcu
  | waitForLcu
  | enableLcu (isDefault : Bool)
  | enableSequencer
  | waitForSequencer
  | allowInputDataflow
  | waitForModuleConfigDone
  | ddrPairInfo
  | startDdrBufferingTask
  | resetDdrBufferingTask
  | changeVdmaToStreamMapping
  | waitOutputTransferDone
  | openBoundaryInputChannel
  | openBoundaryOutputChannel
  | activateBoundaryInputChannel
  | activateBoundaryOutputChannel
  | activateInterContextInputChannel
  | activateInterContextOutputChannel
  | activateDdrInputChannel
  | activateDdrOutputChannel
  | validateChannel
  | deactivateChannel
  | waitDmaIdle
  | waitNmsIdle
  | enableNms
deriving DecidableEq, Repr

/-- The `supports_repeated_block()` virtual of each class in
`context_switch_actions.cpp`. -/
def csSupportsRepeated : CSKind → Bool
  | .fetchCfgChannelDescriptors => true
  | .disableLcu => true
  | .enableLcu _ => true
  | .enableSequencer => true
  | .allowInputDataflow => true
  | .ddrPairInfo => true
  | .changeVdmaToStreamMapping => true
  | .enableNms => true
  | _ => false

/-- The `m_action_list_type` each class constructor establishes (classes
using the one-argument base constructor get the `COUNT` sentinel). -/
def csListType : CSKind → CSListType
  | .noneAction => .count
  | .activateConfigChannel => .activateCfgChannel
  | .deactivateConfigChannel => .deactivateCfgChannel
  | .writeDataCcw => .count
  | .addCcwBurst => .fetchCcwBursts
  | .fetchCfgChannelDescriptors => .fetchCfgChannelDescriptors
  | .startBurstCreditsTask => .burstCreditsTaskStart
  | .waitForNetworkGroupChange => .applicationChangeInterrupt
  | .disableLcu => .disableLcu
  | .waitForLcu => .lcuInterrupt
  | .enableLcu true => .enableLcuDefault
  | .enableLcu false => .enableLcuNonDefault
  | .enableSequencer => .triggerSequencer
  | .waitForSequencer => .sequencerDoneInterrupt
  | .allowInputDataflow => .fetchDataFromVdmaChannel
  | .waitForModuleConfigDone => .moduleConfigDoneInterrupt
  | .ddrPairInfo => .addDdrPairInfo
  | .startDdrBufferingTask => .ddrBufferingStart
  | .resetDdrBufferingTask => .ddrBufferingReset
  | .changeVdmaToStreamMapping => .changeVdmaToStreamMapping
  | .waitOutputTransferDone => .outputChannelTransferDoneInterrupt
  | .openBoundaryInputChannel => .openBoundaryInputChannel
  | .openBoundaryOutputChannel => .openBoundaryOutputChannel
  | .activateBoundaryInputChannel => .activateBoundaryInput
  | .activateBoundaryOutputChannel => .activateBoundaryOutput
  | .activateInterContextInputChannel => .activateInterContextInput
  | .activateInterContextOutputChannel => .activateInterContextOutput
  | .activateDdrInputChannel => .activateDdrBufferInput
  | .activateDdrOutputChannel => .activateDdrBufferOutput
  | .validateChannel => .validateVdmaChannel
  | .deactivateChannel => .deactivateVdmaChannel
  | .waitDmaIdle => .waitForDmaIdle
  | .waitNmsIdle => .waitForNms
  | .enableNms => .enableNms

/-- A `ContextSwitchConfigAction` of `context_switch_actions.cpp`: a
concrete action or a `RepeatedAction` holding its member actions. -/
inductive CSAction where
  | basic (k : CSKind)
  | repeated (members : List CSAction)

/-- `supports_repeated_block()` through the hierarchy (a `RepeatedAction`
answers `false`: repeated actions cannot be nested). -/
def CSAction.supports : CSAction → Bool
  | .basic k => csSupportsRepeated k
  | .repeated _ => false

/-- `get_action_list_type()` through the hierarchy. -/
def CSAction.getListType : CSAction → CSListType
  | .basic k => csListType k
  | .repeated _ => .repeatedAction

/-- `RepeatedAction::create` of `context_switch_actions.cpp`: refuse an
empty member list (`HAILO_INVALID_HEF`), more than 255 members
(`IS_FIT_IN_UINT8`, `HAILO_INTERNAL_FAILURE`), a head that does not
support repeated blocks (`HAILO_INVALID_HEF` — in particular another
`RepeatedAction`), and a head whose action-list type is the `COUNT`
sentinel (`HAILO_INVALID_HEF`). -/
def RepeatedAction.create (actions : List CSAction) : Except HailoStatus CSAction :=
  match actions with
  | [] => .error .invalidHef
  | a :: rest =>
      if 255 < (a :: rest).length then .error .internalFailure
      else if a.supports = false then .error .invalidHef
      else if a.getListType = .count then .error .invalidHef
      else .ok (.repeated (a :: rest))

/-- The header of one serialized firmware action: the action-list type and
the `is_repeated` flag written by `serialize_header` (the per-class params
payload is irrelevant here). -/
structure SerializedBuffer where
  actionType : CSListType
  isRepeated : Bool
deriving DecidableEq, Repr

mutual

/-- `ContextSwitchConfigAction::serialize` through the hierarchy:
`NoneAction` and `WriteDataCcwAction` serialize to no buffers; other
concrete actions produce one header-plus-params buffer unless their
action-list type is the `COUNT` sentinel (`HAILO_INTERNAL_FAILURE`); a
`RepeatedAction` refuses to be serialized as a member of another repeated
block (`HAILO_INTERNAL_FAILURE`), then emits its header followed by its
members serialized with the `REPEATED` flag, each required to produce
exactly one buffer. -/
def CSAction.serialize (isRep : Bool) : CSAction → Except HailoStatus (List SerializedBuffer)
  | .basic .noneAction => .ok []
  | .basic .writeDataCcw => .ok []
  | .basic k =>
      if csListType k = .count then .error .internalFailure
      else .ok [{ actionType := csListType k, isRepeated := isRep }]
  | .repeated ms =>
      if isRep then .error .internalFailure
      else
        match serializeMembers ms with
        | .error e => .error e
        | .ok bufs =>
            .ok ({ actionType := .repeatedAction, isRepeated := false } :: bufs)

/-- The member loop of `RepeatedAction::serialize`: each member is
serialized with the `REPEATED` flag and must yield exactly one buffer. -/
def serializeMembers : List CSAction → Except HailoStatus (List SerializedBuffer)
  | [] => .ok []
  | m :: rest =>
      match CSAction.serialize true m with
      | .error e => .error e
      | .ok bufs =>
          if bufs.length ≠ 1 then .error .internalFailure
          else
            match serializeMembers rest with
            | .error e => .error e
            | .ok tail => .ok (bufs ++ tail)

end

/-- C9: repeated-group construction refusals.  `RepeatedAction::create`
fails on an empty member list, on more than 255 members, on a head member
that does not support repeated blocks, and in particular on wrapping
another repeated group; `RepeatedAction::serialize` refuses to serialize a
repeated group as a member of another repeated group; and the
`RepeatedHeaderAction::create` factory of `hef.cpp` refuses a zero count
and the `ADD_REPEATED` sub-action sentinel.  So no nested compression is
ever produced or serialized. -/
theorem repeated_refusals :
    RepeatedAction.create [] = .error .invalidHef
    ∧ (∀ actions : List CSAction, 255 < actions.length →
        RepeatedAction.create actions = .error .internalFailure)
    ∧ (∀ (a : CSAction) (rest : List CSAction), (a :: rest).length ≤ 255 →
        a.supports = false → RepeatedAction.create (a :: rest) = .error .invalidHef)
    ∧ (∀ (ms rest : List CSAction), (CSAction.repeated ms :: rest).length ≤ 255 →
        RepeatedAction.create (.repeated ms :: rest) = .error .invalidHef)
    ∧ (∀ ms : List CSAction, CSAction.serialize true (.repeated ms) = .error .internalFailure)
    ∧ (∀ st : CtrlActionType, RepeatedHeaderAction.create st 0 = .error .invalidHef)
    ∧ (∀ n : Nat, RepeatedHeaderAction.create .addRepeated n = .error .invalidHef) := by
  refine ⟨rfl, ?_, ?_, ?_, ?_, ?_, ?_⟩
  · intro actions h
    cases actions with
    | nil => simp at h
    | cons a rest =>
        rw [RepeatedAction.create, if_pos h]
  · intro a rest hlen hsup
    rw [RepeatedAction.create, if_neg (by omega), if_pos hsup]
  · intro ms rest hlen
    rw [RepeatedAction.create, if_neg (by omega),
      if_pos (show CSAction.supports (.repeated ms) = false from rfl)]
  · intro ms
    simp [CSAction.serialize]
  · intro st
    cases st <;> rfl
  · intro n
    rfl

/-- Witness: the refusals at concrete inputs — 256 members, a
non-repeatable head (`NoneAction`), a nested repeated group, serializing
inside a repeated block, a zero header count and the `ADD_REPEATED`
header sentinel. -/
theorem repeated_refusals_witness :
    RepeatedAction.create (List.replicate 256 (CSAction.basic .disableLcu))
        = .error .internalFailure
    ∧ RepeatedAction.create [CSAction.basic .noneAction] = .error .invalidHef
    ∧ RepeatedAction.create [CSAction.repeated []] = .error .invalidHef
    ∧ CSAction.serialize true (.repeated [CSAction.basic .disableLcu])
        = .error .internalFailure
    ∧ RepeatedHeaderAction.create .disableLcu 0 = .error .invalidHef
    ∧ RepeatedHeaderAction.create .addRepeated 7 = .error .invalidHef :=
  ⟨repeated_refusals.2.1 _ (by rw [List.length_replicate]; omega),
   repeated_refusals.2.2.1 (CSAction.basic .noneAction) [] (by simp) rfl,
   repeated_refusals.2.2.2.1 [] [] (by simp),
   repeated_refusals.2.2.2.2.1 [CSAction.basic .disableLcu],
   repeated_refusals.2.2.2.2.2.1 .disableLcu,
   repeated_refusals.2.2.2.2.2.2 7⟩

/-- The connection kind of an edge layer. -/
inductive LayerKind where
  | boundary
  | interContext
  | ddr
deriving DecidableEq, Repr

/-- A vDMA channel direction. -/
inductive ChannelDir where
  | h2d
  | d2h
deriving DecidableEq, Repr

/-- One channel-id allocator call made while wiring a context:
`get_available_channel_id` (`acquire = true`) or `free_channel_index`
(`acquire = false`), keyed by the layer identifier (its kind, direction
and stream index; `to_layer_identifier` itself is declared outside this
repository's files). -/
structure WEvent where
  acquire : Bool
  kind : LayerKind
  dir : ChannelDir
  stream : Nat
deriving DecidableEq, Repr

/-- The edge-layer fields consulted while wiring a context. -/
structure EdgeLayer where
  streamIndex : Nat := 0
  srcStreamIndex : Nat := 0
  dstStreamIndex : Nat := 0
  srcContextIndex : Nat := 0
deriving DecidableEq, Repr

/-- The two channel acquisitions of `fill_ddr_output_layer`: the H2D side
first, then the D2H side. -/
def ddrOutEvents (l : EdgeLayer) : List WEvent :=
  [{ acquire := true, kind := .ddr, dir := .h2d, stream := l.streamIndex },
   { acquire := true, kind := .ddr, dir := .d2h, stream := l.streamIndex }]

/-- The `ddr_output_layers` loop: `fill_ddr_output_layer` per layer.  The
`padded_ddr_buffers` supported-features check fails with
`HAILO_INVALID_HEF`; on success the layer's channel pair
(`h2d_stream_index = dst_stream_index`, `d2h_stream_index =
src_stream_index`) is registered by `create_ddr_channels_pair`. -/
def fillDdrOutputs (padded : Bool) :
    List EdgeLayer → List (Nat × Nat) → Except HailoStatus (List WEvent × List (Nat × Nat))
  | [], pairs => .ok ([], pairs)
  | l :: rest, pairs =>
      if padded = false then .error .invalidHef
      else
        match fillDdrOutputs padded rest (pairs ++ [(l.dstStreamIndex, l.srcStreamIndex)]) with
        | .error e => .error e
        | .ok (evs, pairs2) => .ok (ddrOutEvents l ++ evs, pairs2)

/-- Modelled from the spec: `ResourcesManager::get_ddr_channels_pair` (not
part of this repository's files) looks a created pair up by its D2H
stream index. -/
def getDdrChannelsPair (pairs : List (Nat × Nat)) (srcStream : Nat) : Option (Nat × Nat) :=
  pairs.find? (fun p => p.2 == srcStream)

/-- The `ddr_input_layers` loop: `fill_ddr_input_layer` per layer — no new
channel is acquired; the pair created by the matching DDR output layer is
looked up (`HAILO_INVALID_HEF` when absent) and both its stream indexes
are checked against the input layer (`HAILO_INVALID_HEF` on mismatch). -/
def fillDdrInputs (pairs : List (Nat × Nat)) : List EdgeLayer → Except HailoStatus Unit
  | [] => .ok ()
  | l :: rest =>
      match getDdrChannelsPair pairs l.srcStreamIndex with
      | none => .error .invalidHef
      | some p =>
          if l.dstStreamIndex ≠ p.1 then .error .invalidHef
          else if l.srcStreamIndex ≠ p.2 then .error .invalidHef
          else fillDdrInputs pairs rest

/-- The acquisition made by each of `fill_boundary_output_layer` (D2H),
`fill_inter_context_output_layer` (D2H) and `fill_boundary_input_layer`
(H2D), one per layer in loop order. -/
def acquireEvents (k : LayerKind) (d : ChannelDir) (ls : List EdgeLayer) : List WEvent :=
  ls.map (fun l => { acquire := true, kind := k, dir := d, stream := l.streamIndex })

/-- The `inter_context_input_layers` loop: `fill_inter_context_input_layer`
acquires the H2D channel and then looks up the inter-context buffer
created by the source context's output layer (failure modelled as
`HAILO_INVALID_HEF`; the source propagates the callee's status, whose
value is declared outside this repository's files). -/
def fillInterContextInputs (icBuffers : List (Nat × Nat)) :
    List EdgeLayer → Except HailoStatus (List WEvent)
  | [] => .ok []
  | l :: rest =>
      if icBuffers.contains (l.srcContextIndex, l.srcStreamIndex) = false then
        .error .invalidHef
      else
        match fillInterContextInputs icBuffers rest with
        | .error e => .error e
        | .ok evs =>
            .ok ({ acquire := true, kind := .interContext, dir := .h2d,
                   stream := l.streamIndex } :: evs)

/-- The release loops at the end of `parse_and_fill_edge_layers_mapping`:
`free_channel_index` on every inter-context input (an H2D layer), every
inter-context output (a D2H layer) and both directions of every DDR
output layer.  Boundary layers are never freed. -/
def releaseEvents (icIn icOut ddrOut : List EdgeLayer) : List WEvent :=
  icIn.map (fun l => { acquire := false, kind := .interContext, dir := .h2d,
                       stream := l.streamIndex })
  ++ icOut.map (fun l => { acquire := false, kind := .interContext, dir := .d2h,
                           stream := l.streamIndex })
  ++ ddrOut.flatMap (fun l =>
      [{ acquire := false, kind := .ddr, dir := .h2d, stream := l.streamIndex },
       { acquire := false, kind := .ddr, dir := .d2h, stream := l.streamIndex }])

/-- `parse_and_fill_edge_layers_mapping` of `hef.cpp` as the sequence of
channel-id allocator calls it performs: the edge-layer count checks, the
six wiring loops in source order (DDR outputs, boundary outputs,
inter-context outputs, DDR inputs, boundary inputs, inter-context
inputs), then the release loops. -/
def parseAndFillEdgeLayersMapping (padded : Bool) (icBuffers : List (Nat × Nat))
    (ddrOut bOut icOut ddrIn bIn icIn : List EdgeLayer) :
    Except HailoStatus (List WEvent) :=
  let n := ddrOut.length + bOut.length + icOut.length
    + ddrIn.length + bIn.length + icIn.length
  if n = 0 then .error .invalidHef
  else if 255 < n then .error .invalidHef
  else
    match fillDdrOutputs padded ddrOut [] with
    | .error e => .error e
    | .ok (evD, pairs) =>
        match fillDdrInputs pairs ddrIn with
        | .error e => .error e
        | .ok () =>
            match fillInterContextInputs icBuffers icIn with
            | .error e => .error e
            | .ok evIcIn =>
                .ok (evD
                  ++ acquireEvents .boundary .d2h bOut
                  ++ acquireEvents .interContext .d2h icOut
                  ++ acquireEvents .boundary .h2d bIn
                  ++ evIcIn
                  ++ releaseEvents icIn icOut ddrOut)

lemma fillDdrOutputs_ok (padded : Bool) :
    ∀ (ls : List EdgeLayer) (pairs : List (Nat × Nat)) (evs : List WEvent)
      (pairs2 : List (Nat × Nat)),
      fillDdrOutputs padded ls pairs = .ok (evs, pairs2) →
      evs = ls.flatMap ddrOutEvents
  | [], pairs, evs, pairs2 => by
      rw [fillDdrOutputs]
      intro h
      have h1 : ([] : List WEvent) = evs := by
        injection h with h
        injection h with h1 h2
      rw [← h1]
      rfl
  | l :: rest, pairs, evs, pairs2 => by
      rw [fillDdrOutputs]
      by_cases hp : padded = false
      · rw [if_pos hp]
        intro h
        exact absurd h (by simp)
      · rw [if_neg hp]
        rcases hrec : fillDdrOutputs padded rest (pairs ++ [(l.dstStreamIndex, l.srcStreamIndex)])
            with e | q
        · simp only
          intro h
          exact absurd h (by simp)
        · obtain ⟨evs0, pairs0⟩ := q
          simp only
          intro h
          have h1 : ddrOutEvents l ++ evs0 = evs := by
            injection h with h
            injection h with h1 h2
          have h2 := fillDdrOutputs_ok padded rest _ evs0 pairs0 hrec
          rw [← h1, h2, List.flatMap_cons]

lemma fillInterContextInputs_ok (icBuffers : List (Nat × Nat)) :
    ∀ (ls : List EdgeLayer) (evs : List WEvent),
      fillInterContextInputs icBuffers ls = .ok evs →
      evs = ls.map (fun l =>
        ({ acquire := true, kind := .interContext, dir := .h2d,
           stream := l.streamIndex } : WEvent))
  | [], evs => by
      rw [fillInterContextInputs]
      intro h
      have h1 : ([] : List WEvent) = evs := by injection h
      rw [← h1]
      rfl
  | l :: rest, evs => by
      rw [fillInterContextInputs]
      by_cases hb : icBuffers.contains (l.srcContextIndex, l.srcStreamIndex) = false
      · rw [if_pos hb]
        intro h
        exact absurd h (by simp)
      · rw [if_neg hb]
        rcases hrec : fillInterContextInputs icBuffers rest with e | evs0
        · simp only
          intro h
          exact absurd h (by simp)
        · simp only
          intro h
          have h1 : ({ acquire := true, kind := .interContext, dir := .h2d, stream := l.streamIndex } : WEvent) :: evs0 = evs := by injection h
          have h2 := fillInterContextInputs_ok icBuffers rest evs0 hrec
          rw [← h1, h2, List.map_cons]

/-- C8: when wiring a context succeeds, the channel-id allocator trace is
exactly: acquisitions for the DDR output layers (H2D then D2H per layer),
then the boundary output layers (D2H), then the inter-context output
layers (D2H), then the boundary input layers (H2D, the DDR input layers
acquiring nothing), then the inter-context input layers (H2D) — in that
strict order — followed by the releases of the inter-context input,
inter-context output and DDR output channel leases; no boundary channel
lease is ever released. -/
theorem wiring_order_and_leases
    (padded : Bool) (icBuffers : List (Nat × Nat))
    (ddrOut bOut icOut ddrIn bIn icIn : List EdgeLayer) (tr : List WEvent)
    (h : parseAndFillEdgeLayersMapping padded icBuffers ddrOut bOut icOut ddrIn bIn icIn
      = .ok tr) :
    tr = ddrOut.flatMap ddrOutEvents
      ++ acquireEvents .boundary .d2h bOut
      ++ acquireEvents .interContext .d2h icOut
      ++ acquireEvents .boundary .h2d bIn
      ++ acquireEvents .interContext .h2d icIn
      ++ releaseEvents icIn icOut ddrOut
    ∧ ∀ e ∈ tr, e.acquire = false → e.kind ≠ .boundary := by
  rw [parseAndFillEdgeLayersMapping] at h
  by_cases h0 : ddrOut.length + bOut.length + icOut.length
      + ddrIn.length + bIn.length + icIn.length = 0
  · rw [if_pos h0] at h
    exact absurd h (by simp)
  · rw [if_neg h0] at h
    by_cases h255 : 255 < ddrOut.length + bOut.length + icOut.length
        + ddrIn.length + bIn.length + icIn.length
    · rw [if_pos h255] at h
      exact absurd h (by simp)
    · rw [if_neg h255] at h
      rcases hD : fillDdrOutputs padded ddrOut [] with e | q
      · rw [hD] at h
        exact absurd h (by simp)
      · obtain ⟨evD, pairs⟩ := q
        rw [hD] at h
        simp only at h
        rcases hI : fillDdrInputs pairs ddrIn with e | u
        · rw [hI] at h
          exact absurd h (by simp)
        · cases u
          rw [hI] at h
          simp only at h
          rcases hC : fillInterContextInputs icBuffers icIn with e | evIcIn
          · rw [hC] at h
            exact absurd h (by simp)
          · rw [hC] at h
            simp only at h
            have htr : evD
                ++ acquireEvents .boundary .d2h bOut
                ++ acquireEvents .interContext .d2h icOut
                ++ acquireEvents .boundary .h2d bIn
                ++ evIcIn
                ++ releaseEvents icIn icOut ddrOut = tr := by
              injection h
            have hevD := fillDdrOutputs_ok padded ddrOut [] evD pairs hD
            have hevC := fillInterContextInputs_ok icBuffers icIn evIcIn hC
            have hacq : acquireEvents .interContext .h2d icIn
                = icIn.map (fun l =>
                  ({ acquire := true, kind := .interContext, dir := .h2d,
                     stream := l.streamIndex } : WEvent)) := rfl
            constructor
            · rw [← htr, hevD, hevC, hacq]
            · intro e he hfree
              rw [← htr, hevD, hevC] at he
              simp only [List.mem_append, List.mem_flatMap, List.mem_map,
                acquireEvents, ddrOutEvents, releaseEvents] at he
              rcases he with ((((he | he) | he) | he) | he) | he
              · obtain ⟨l, hl, he⟩ := he
                simp at he
                rcases he with he | he <;> rw [he] at hfree <;> simp at hfree
              · obtain ⟨l, hl, he⟩ := he
                rw [← he] at hfree
                simp at hfree
              · obtain ⟨l, hl, he⟩ := he
                rw [← he] at hfree
                simp at hfree
              · obtain ⟨l, hl, he⟩ := he
                rw [← he] at hfree
                simp at hfree
              · obtain ⟨l, hl, he⟩ := he
                rw [← he] at hfree
                simp at hfree
              · rcases he with (he | he) | he
                · obtain ⟨l, hl, he⟩ := he
                  rw [← he]
                  simp
                · obtain ⟨l, hl, he⟩ := he
                  rw [← he]
                  simp
                · obtain ⟨l, hl, he⟩ := he
                  simp at he
                  rcases he with he | he <;> rw [he] <;> simp

/-- The allocator trace of a one-layer-per-kind context. -/
def wTrace : List WEvent :=
  [{ acquire := true, kind := .ddr, dir := .h2d, stream := 3 },
   { acquire := true, kind := .ddr, dir := .d2h, stream := 3 },
   { acquire := true, kind := .boundary, dir := .d2h, stream := 4 },
   { acquire := true, kind := .interContext, dir := .d2h, stream := 6 },
   { acquire := true, kind := .boundary, dir := .h2d, stream := 7 },
   { acquire := true, kind := .interContext, dir := .h2d, stream := 8 },
   { acquire := false, kind := .interContext, dir := .h2d, stream := 8 },
   { acquire := false, kind := .interContext, dir := .d2h, stream := 6 },
   { acquire := false, kind := .ddr, dir := .h2d, stream := 3 },
   { acquire := false, kind := .ddr, dir := .d2h, stream := 3 }]

/-- Witness: the trace shape on a context with one layer of each kind. -/
theorem wiring_order_and_leases_witness :
    wTrace = ([{ streamIndex := 3, srcStreamIndex := 1, dstStreamIndex := 2 }]
        : List EdgeLayer).flatMap ddrOutEvents
      ++ acquireEvents .boundary .d2h [{ streamIndex := 4 }]
      ++ acquireEvents .interContext .d2h [{ streamIndex := 6 }]
      ++ acquireEvents .boundary .h2d [{ streamIndex := 7 }]
      ++ acquireEvents .interContext .h2d
          [{ streamIndex := 8, srcStreamIndex := 5, srcContextIndex := 0 }]
      ++ releaseEvents
          [{ streamIndex := 8, srcStreamIndex := 5, srcContextIndex := 0 }]
          [{ streamIndex := 6 }]
          [{ streamIndex := 3, srcStreamIndex := 1, dstStreamIndex := 2 }] :=
  (wiring_order_and_leases true [(0, 5)]
    [{ streamIndex := 3, srcStreamIndex := 1, dstStreamIndex := 2 }]
    [{ streamIndex := 4 }]
    [{ streamIndex := 6 }]
    [{ srcStreamIndex := 1, dstStreamIndex := 2 }]
    [{ streamIndex := 7 }]
    [{ streamIndex := 8, srcStreamIndex := 5, srcContextIndex := 0 }]
    wTrace (by decide)).1

set_option maxRecDepth 100000 in
/-- Witness: the chunk bounds applied to the first chunk of the 300-run. -/
theorem repeated_chunking_bounds_witness :
    2 ≤ ((0, 255) : Nat × Nat).2 ∧ ((0, 255) : Nat × Nat).2 ≤ 255
      ∧ supportsRepeatedBlock (typAt (List.replicate 300 dlAction) ((0, 255) : Nat × Nat).1) = true
      ∧ (∀ i, ((0, 255) : Nat × Nat).1 ≤ i → i < ((0, 255) : Nat × Nat).1 + ((0, 255) : Nat × Nat).2 →
          typAt (List.replicate 300 dlAction) i
            = typAt (List.replicate 300 dlAction) ((0, 255) : Nat × Nat).1) :=
  repeated_chunking_bounds.1 (List.replicate 300 dlAction) (0, 255) (by decide)

end Hailo
